import Mathlib

/-!
Verification development for the Solar test-suite orchestrator
(src/tools/tester/src/lib.rs).

The orchestrator is shallowly embedded below: paths are lists of
components, the filesystem is an inductive tree, and the external
collaborators (check/run functions, the property loader, the revision
lister, the concurrent scheduler) are parameters, exactly as the source
uses them only abstractly.
-/

namespace Solar

/-! ## Byte-wise ordering

Rust compares test names and file names as raw UTF-8 byte slices
(`a.desc.name.as_slice().cmp(b.desc.name.as_slice())`, and walkdir's
`sort_by_file_name` compares `OsStr` contents).  We model the byte view
of a string by UTF-8 encoding its characters, and lexicographic
byte-slice comparison on the resulting lists. -/

/-- UTF-8 encoding of a single character (1 to 4 bytes), following the
standard range split on the code point. -/
def utf8Bytes (c : Char) : List Nat :=
  let v := c.toNat
  if v < 0x80 then [v]
  else if v < 0x800 then [0xC0 + v / 64, 0x80 + v % 64]
  else if v < 0x10000 then [0xE0 + v / 4096, 0x80 + v / 64 % 64, 0x80 + v % 64]
  else [0xF0 + v / 262144, 0x80 + v / 4096 % 64, 0x80 + v / 64 % 64, 0x80 + v % 64]

/-- The UTF-8 byte sequence of a string. -/
def strBytes (s : String) : List Nat :=
  s.data.flatMap utf8Bytes

/-- Lexicographic (non-strict) order on byte lists, as Rust's
slice comparison: element-wise, with a proper prefix ordered first. -/
def listLe : List Nat → List Nat → Bool
  | [], _ => true
  | _ :: _, [] => false
  | a :: as, b :: bs => a < b || (a == b && listLe as bs)

/-- Lexicographic strict order on byte lists. -/
def listLt : List Nat → List Nat → Bool
  | [], [] => false
  | [], _ :: _ => true
  | _ :: _, [] => false
  | a :: as, b :: bs => a < b || (a == b && listLt as bs)

theorem listLe_total (a b : List Nat) : listLe a b = true ∨ listLe b a = true := by
  induction a generalizing b with
  | nil => left; rfl
  | cons x xs ih =>
    cases b with
    | nil => right; rfl
    | cons y ys =>
      rcases Nat.lt_trichotomy x y with h | h | h
      · left; simp [listLe, h]
      · subst h
        rcases ih ys with h2 | h2
        · left; simp [listLe, h2]
        · right; simp [listLe, h2]
      · right; simp [listLe, h]

theorem listLe_trans {a b c : List Nat} (h1 : listLe a b = true)
    (h2 : listLe b c = true) : listLe a c = true := by
  induction a generalizing b c with
  | nil => rfl
  | cons x xs ih =>
    cases b with
    | nil => simp [listLe] at h1
    | cons y ys =>
      cases c with
      | nil => simp [listLe] at h2
      | cons z zs =>
        simp only [listLe, Bool.or_eq_true, Bool.and_eq_true, decide_eq_true_eq,
          beq_iff_eq] at h1 h2 ⊢
        rcases h1 with h1 | ⟨h1e, h1r⟩
        · rcases h2 with h2 | ⟨h2e, h2r⟩
          · exact Or.inl (Nat.lt_trans h1 h2)
          · exact Or.inl (h2e ▸ h1)
        · rcases h2 with h2 | ⟨h2e, h2r⟩
          · exact Or.inl (h1e ▸ h2)
          · exact Or.inr ⟨h1e.trans h2e, ih h1r h2r⟩

theorem listLe_antisymm {a b : List Nat} (h1 : listLe a b = true)
    (h2 : listLe b a = true) : a = b := by
  induction a generalizing b with
  | nil =>
    cases b with
    | nil => rfl
    | cons y ys => simp [listLe] at h2
  | cons x xs ih =>
    cases b with
    | nil => simp [listLe] at h1
    | cons y ys =>
      simp only [listLe, Bool.or_eq_true, Bool.and_eq_true, decide_eq_true_eq,
        beq_iff_eq] at h1 h2
      rcases h1 with h1 | ⟨h1e, h1r⟩
      · rcases h2 with h2 | ⟨h2e, h2r⟩
        · exact absurd h1 (Nat.lt_asymm h2)
        · exact absurd h1 (h2e ▸ Nat.lt_irrefl y)
      · rcases h2 with h2 | ⟨h2e, h2r⟩
        · exact absurd h2 (h1e ▸ Nat.lt_irrefl x)
        · exact h1e ▸ congrArg (x :: ·) (ih h1r h2r)

theorem listLt_irrefl (a : List Nat) : listLt a a = false := by
  induction a with
  | nil => rfl
  | cons x xs ih => simp [listLt, ih]

theorem listLt_of_lt_of_le {a b c : List Nat} (h1 : listLt a b = true)
    (h2 : listLe b c = true) : listLt a c = true := by
  induction a generalizing b c with
  | nil =>
    cases b with
    | nil => simp [listLt] at h1
    | cons y ys =>
      cases c with
      | nil => simp [listLe] at h2
      | cons z zs => rfl
  | cons x xs ih =>
    cases b with
    | nil => simp [listLt] at h1
    | cons y ys =>
      cases c with
      | nil => simp [listLe] at h2
      | cons z zs =>
        simp only [listLt, listLe, Bool.or_eq_true, Bool.and_eq_true,
          decide_eq_true_eq, beq_iff_eq] at h1 h2 ⊢
        rcases h1 with h1 | ⟨h1e, h1r⟩
        · rcases h2 with h2 | ⟨h2e, h2r⟩
          · exact Or.inl (Nat.lt_trans h1 h2)
          · exact Or.inl (h2e ▸ h1)
        · rcases h2 with h2 | ⟨h2e, h2r⟩
          · exact Or.inl (h1e ▸ h2)
          · exact Or.inr ⟨h1e.trans h2e, ih h1r h2r⟩

theorem listLt_ne {a b : List Nat} (h : listLt a b = true) : a ≠ b := by
  intro he
  subst he
  rw [listLt_irrefl] at h
  exact Bool.false_ne_true h

/-! ## Paths

A filesystem path is modelled as its list of components.  The project
root is a component list; discovered fixture paths are component lists
extending it. -/

/-- Result of Rust Path::strip_prefix, as used on line 107 of the
source: the suffix of the component list when the base is a prefix. -/
def stripRoot (base p : List String) : Option (List String) :=
  if base.isPrefixOf p then some (p.drop base.length) else none

/-- Rust Path::parent on a component list: none for the empty path,
otherwise the path with the last component removed. -/
def parentOf : List String → Option (List String)
  | [] => none
  | xs => some xs.dropLast

/-- Rust Path::display of a relative path: components joined by
the separator. -/
def displayPath : List String → String
  | [] => ""
  | [x] => x
  | x :: xs => x ++ "/" ++ displayPath xs

/-- Characters after the last dot of a character list, when the list
contains a dot at all. -/
def lastDotSplit : List Char → Option (List Char)
  | [] => none
  | c :: cs =>
    match lastDotSplit cs with
    | some e => some e
    | none => if c == '.' then some cs else none

/-- Rust Path::extension on a file name: the part after the last dot,
provided the name has a nonempty stem before that dot (so a leading
dot alone introduces no extension). -/
def extOfName (n : String) : Option String :=
  match n.data with
  | [] => none
  | c :: cs =>
    if c == '.' then (lastDotSplit cs).map String.mk
    else (lastDotSplit (c :: cs)).map String.mk

/-- Rust Path::extension on a path: the extension of its last component. -/
def extOf (p : List String) : Option String :=
  match p.getLast? with
  | none => none
  | some n => extOfName n

/-! ## Filesystem model

The fixture tree on disk.  walkdir is an external crate; its documented
behaviour with sort_by_file_name is a depth-first walk that yields a
directory before its contents and visits the children of each directory
sorted by file name (byte-wise). -/

/-- A filesystem entry: a regular file with contents, or a directory
with children. -/
inductive Fs where
  | file (name : String) (content : String) : Fs
  | dir (name : String) (children : List Fs) : Fs

/-- Name of a filesystem entry. -/
def Fs.name : Fs → String
  | .file n _ => n
  | .dir n _ => n

/-- One entry yielded by the directory walk: its full path (component
list) and whether it is a directory. -/
structure Item where
  path : List String
  isDir : Bool
deriving DecidableEq

/-- Ordering of sibling walk results by file name bytes, as walkdir's
sort_by_file_name compares OsStr contents. -/
def kidLe (a b : String × List Item) : Prop :=
  listLe (strBytes a.1) (strBytes b.1) = true

instance : DecidableRel kidLe := fun a b => by
  unfold kidLe; infer_instance

mutual

/-- Depth-first walk of the entry rooted at path p, directories before
their contents, children visited in byte-wise file-name order
(walkdir with sort_by_file_name). -/
def walk (p : List String) : Fs → List Item
  | .file _ _ => [⟨p, false⟩]
  | .dir _ cs =>
    ⟨p, true⟩ :: (((walkKids p cs).insertionSort kidLe).map Prod.snd).flatten

/-- Walks of the children of a directory at path p, each paired with
the child's file name (the sort key). -/
def walkKids (p : List String) : List Fs → List (String × List Item)
  | [] => []
  | c :: cs => (c.name, walk (p ++ [c.name]) c) :: walkKids p cs

end

/-- Resolve a relative component path inside a tree. -/
def navigate : List String → Fs → Option Fs
  | [], t => some t
  | n :: rest, .dir _ cs =>
    match cs.find? (fun c => c.name == n) with
    | some c => navigate rest c
    | none => none
  | _ :: _, .file _ _ => none

/-- Contents of the regular file at a relative component path. -/
def fileContent : List String → Fs → Option String
  | [], .file _ c => some c
  | [], .dir _ _ => none
  | n :: rest, .dir _ cs =>
    match cs.find? (fun c => c.name == n) with
    | some c => fileContent rest c
    | none => none
  | _ :: _, .file _ _ => none

/-- A component is a valid file name for the collision arguments: it
does not contain the path separator or the revision separator. -/
def goodName (n : String) : Bool :=
  !n.data.contains '/' && !n.data.contains '#'

/-- Sibling names have pairwise distinct byte encodings, as a real
filesystem guarantees for the children of one directory. -/
def namesOk (cs : List Fs) : Bool :=
  decide ((cs.map (fun c => strBytes c.name)).Pairwise (· ≠ ·))

mutual

/-- Well-formedness of a tree, as a real filesystem provides it:
sibling names have pairwise distinct byte encodings, and every name is
free of the path and revision separators. -/
def Wf : Fs → Bool
  | .file n _ => goodName n
  | .dir n cs => goodName n && WfKids cs && namesOk cs

/-- Well-formedness of every entry of a list of children. -/
def WfKids : List Fs → Bool
  | [] => true
  | c :: cs => Wf c && WfKids cs

end

/-! ## The orchestrator

Direct translation of src/tools/tester/src/lib.rs.  The check and run
functions, the property loaders and the revision lister live in modules
outside the provided source and are taken as parameters, exactly as
lib.rs uses them only through their signatures. -/

/-- Tri-state result produced by the mode check and run functions
(utils::TestResult). -/
inductive TestResult where
  | Passed
  | Failed
  | Skipped (reason : String)
deriving DecidableEq

/-- The closed mode enum (lines 209 to 214). -/
inductive Mode where
  | Ui
  | SolcSolidity
  | SolcYul
deriving DecidableEq

/-- String tag of a mode, as matched for TESTER_MODE (lines 64 to 68)
and interpolated into display names (lines 115 to 119). -/
def modeTag : Mode → String
  | .Ui => "ui"
  | .SolcSolidity => "solc-solidity"
  | .SolcYul => "solc-yul"

/-- Discovery root of a mode relative to the project root
(lines 187 to 191). -/
def modeRoot : Mode → List String
  | .Ui => ["tests", "ui"]
  | .SolcSolidity => ["testdata", "solidity", "test"]
  | .SolcYul => ["testdata", "solidity", "test", "libyul"]

/-- Whether the mode additionally admits the .yul extension
(lines 193 to 197). -/
def modeYul : Mode → Bool
  | .Ui => true
  | .SolcSolidity => false
  | .SolcYul => true

/-- Mode::solc_props (lines 217 to 219). -/
def Mode.solc_props : Mode → Bool
  | .SolcSolidity => true
  | .SolcYul => true
  | .Ui => false

/-- Process-wide configuration (struct Config, lines 227 to 235), with
paths as component lists. -/
structure Config where
  cmd : List String
  root : List String
  build_base : List String
  verbose : Bool
  bless : Bool

/-- Config::new (lines 237 to 249): the project root is the grandparent
of the manifest directory, build_base is target/tester under it, and
bless is set when TESTER_BLESS holds any value other than "0".  The
eager creation of build_base is a filesystem effect not modelled; each
unwrap on a missing parent is a process abort (none). -/
def Config.new (cmd manifestDir : List String) (blessVar : Option String) :
    Option Config :=
  match parentOf manifestDir with
  | none => none
  | some p1 =>
    match parentOf p1 with
    | none => none
    | some root =>
      some { cmd := cmd, root := root,
             build_base := root ++ ["target", "tester"],
             verbose := false,
             bless := match blessVar with | some x => x != "0" | none => false }

/-- context::TestPaths, as captured by the run closure. -/
structure TestPaths where
  file : List String
  relative_dir : List String

/-- context::TestCx, the execution context handed to a run function.
The structured properties have an external representation, kept
abstract. -/
structure TestCx (Props : Type) where
  config : Config
  paths : TestPaths
  src : String
  props : Props
  revision : Option String

/-- struct TestFns (lines 222 to 225): the check and run function pair
of a mode. -/
structure TestFns (Props : Type) where
  check : Config → List String → TestResult
  run : TestCx Props → TestResult

/-- The descriptor handed to the external scheduler (lines 127 to 150).
Under the nightly feature the TestDesc carries ignore_message; under
the default feature it has no such field, so the built descriptor
reports no message.  ignoreMessage holds exactly what the descriptor
reports to the scheduler. -/
structure TestDesc where
  name : String
  ignore : Bool
  ignoreMessage : Option String
deriving DecidableEq

/-- Completion of the run closure: ok, or the failure channel (an Err
return under nightly, a panic under the default feature). -/
inductive RunOutcome where
  | ok
  | err (msg : String)
deriving DecidableEq

/-- test::TestDescAndFn: the descriptor plus the deferred closure,
the latter represented by its (pure) outcome. -/
structure TestDescAndFn where
  desc : TestDesc
  testfn : RunOutcome
deriving DecidableEq

/-- Behaviour of the deferred run closure (lines 151 to 168): read the
fixture from the tree rooted at config.root (an unreadable file is an
unwrap panic), load its properties for the active revision, invoke the
run function, and send only a Failed result to the failure channel with
the generic message.  The idempotent re-creation of the output
directory is a filesystem effect not modelled. -/
def closureOutcome {Props : Type} (t : Fs)
    (load : String → Option String → Props) (run : TestCx Props → TestResult)
    (config : Config) (path relative_dir : List String)
    (revision : Option String) : RunOutcome :=
  match stripRoot config.root path with
  | none => .err "read_to_string failed"
  | some rel =>
    match fileContent rel t with
    | none => .err "read_to_string failed"
    | some src =>
      let props := load src revision
      let cx : TestCx Props := ⟨config, ⟨path, relative_dir⟩, src, props, revision⟩
      match run cx with
      | .Failed => .err "test failed"
      | _ => .ok

/-- Body of the make_test closure (lines 104 to 170): compute the
relative path, falling back to the full path when the fixture is not
under the project root; abort (none) when the relative path has no
parent; build the display name; consult the check function; and package
the descriptor with its deferred closure.  The eager creation of the
per-fixture output directory for non-conformance modes (lines 110
to 113) is a filesystem effect not modelled. -/
def make_test {Props : Type} (nightly : Bool) (config : Config) (t : Fs)
    (fns : TestFns Props) (load : String → Option String → Props) (mode : Mode)
    (path : List String) (revision : Option String) : Option TestDescAndFn :=
  let rel_path := (stripRoot config.root path).getD path
  match parentOf rel_path with
  | none => none
  | some relative_dir =>
    let rev_name := (revision.map (fun r => "#" ++ r)).getD ""
    let name := "[" ++ modeTag mode ++ "] " ++ displayPath rel_path ++ rev_name
    let ignore_reason :=
      match fns.check config path with
      | .Skipped reason => some reason
      | _ => none
    some { desc := { name := name, ignore := ignore_reason.isSome,
                     ignoreMessage := if nightly then ignore_reason else none },
           testfn := closureOutcome t load fns.run config path relative_dir revision }

/-- Revision fan-out for one fixture (lines 172 to 182): Ui mode loads
the declared revisions and produces one case per tag when any exist,
otherwise a single unrevisioned case; every other mode produces a
single unrevisioned case without consulting the lister. -/
def casesFor {Props : Type} (nightly : Bool) (config : Config) (t : Fs)
    (fns : TestFns Props) (load : String → Option String → Props)
    (loadRevisions : List String → List String) (mode : Mode)
    (path : List String) : Option (List TestDescAndFn) :=
  match mode with
  | .Ui =>
    match loadRevisions path with
    | [] => (make_test nightly config t fns load .Ui path none).map (fun d => [d])
    | r :: rs =>
      (r :: rs).mapM (fun rev => make_test nightly config t fns load .Ui path (some rev))
  | m => (make_test nightly config t fns load m path none).map (fun d => [d])

/-- The extension filter of lines 202 to 205: keep paths with the sol
extension, or the yul extension when the mode admits it. -/
def extMatch (mode : Mode) (p : List String) : Bool :=
  extOf p == some "sol" || (modeYul mode && extOf p == some "yul")

/-- collect_tests (lines 186 to 207): walk the mode's discovery root
under the project root (a missing root makes the walk produce an error
entry whose unwrap aborts the process, returned as none) and keep the
entries whose extension is sol, or yul when the mode admits it. -/
def collect_tests (config : Config) (t : Fs) (mode : Mode) : Option (List Item) :=
  match navigate (modeRoot mode) t with
  | none => none
  | some sub =>
    some ((walk (config.root ++ modeRoot mode) sub).filter
      (fun e => extMatch mode e.path))

/-- make_tests (lines 93 to 184): select the mode's function pair and
property loader, discover the fixtures, and append the fan-out of every
fixture; none models a process abort anywhere inside. -/
def make_tests {Props : Type} (nightly : Bool) (config : Config) (t : Fs)
    (fnsOf : Mode → TestFns Props)
    (loadProps loadSolcProps : String → Option String → Props)
    (loadRevisions : List String → List String) (mode : Mode) :
    Option (List TestDescAndFn) :=
  let fns := fnsOf mode
  let load := if mode.solc_props then loadSolcProps else loadProps
  match collect_tests config t mode with
  | none => none
  | some inputs =>
    (inputs.mapM
      (fun input => casesFor nightly config t fns load loadRevisions mode input.path)).map
      List.flatten

/-- Parsing of the TESTER_MODE value (lines 64 to 69). -/
def parseMode (s : String) : Option Mode :=
  if s == "ui" then some .Ui
  else if s == "solc-solidity" then some .SolcSolidity
  else if s == "solc-yul" then some .SolcYul
  else none

/-- Active mode list (lines 61 to 71): all three without an override,
exactly the named one under a recognized override, and a process abort
with a diagnostic (before any discovery) otherwise. -/
def activeModes (modeVar : Option String) : Except String (List Mode) :=
  match modeVar with
  | none => .ok [.Ui, .SolcSolidity, .SolcYul]
  | some s =>
    match parseMode s with
    | some m => .ok [m]
    | none => .error ("unknown mode: " ++ s)

/-- Ordering of descriptors by the raw bytes of their display names, as
the sort on line 78 compares name.as_slice(). -/
def nameLe (a b : TestDescAndFn) : Prop :=
  listLe (strBytes a.desc.name) (strBytes b.desc.name) = true

instance : DecidableRel nameLe := fun a b => by unfold nameLe; infer_instance

/-- run_tests (lines 40 to 91) from the TESTER_MODE handling on: pick
the active modes, build every active mode's cases against the fixture
tree t rooted at config.root, and sort the concatenation by
display-name bytes (a stable sort, as Rust sort_by).  CLI option
parsing and the console runner are external collaborators. -/
def run_tests {Props : Type} (nightly : Bool) (modeVar : Option String)
    (config : Config) (t : Fs) (fnsOf : Mode → TestFns Props)
    (loadProps loadSolcProps : String → Option String → Props)
    (loadRevisions : List String → List String) :
    Except String (List TestDescAndFn) :=
  match activeModes modeVar with
  | .error e => .error e
  | .ok modes =>
    match modes.mapM
        (fun mode =>
          make_tests nightly config t fnsOf loadProps loadSolcProps loadRevisions mode) with
    | none => .error "panic during make_tests"
    | some perMode => .ok (perMode.flatten.insertionSort nameLe)

/-- Report of a single case as the operator sees it. -/
inductive CaseReport where
  | passed
  | failed (msg : String)
  | ignored (msg : Option String)
deriving DecidableEq

/-- Modelled from the spec: the external scheduler (the tester crate's
run_tests_console, not part of this repository) runs each registered
descriptor under its thread pool; a descriptor marked ignored is
reported as ignored with whatever message the descriptor carries and
its closure is never invoked; otherwise the closure runs and its
completion or failure-channel message is reported. -/
def scheduleCase (d : TestDescAndFn) : CaseReport :=
  if d.desc.ignore then .ignored d.desc.ignoreMessage
  else
    match d.testfn with
    | .ok => .passed
    | .err m => .failed m

/-- The display name built by make_test, as a function of the mode, the
relative path and the optional revision. -/
def mkName (mode : Mode) (rel : List String) (rev : Option String) : String :=
  "[" ++ modeTag mode ++ "] " ++ displayPath rel ++
    ((rev.map (fun r => "#" ++ r)).getD "")

/-! ## String decomposition lemmas

The uniqueness arguments all reduce to the fact that a separator-free
block followed by a separator-headed (or empty) remainder can be read
back from a character list unambiguously. -/

theorem sep_split_unique (sep : Char) :
    ∀ {a₁ b₁ a₂ b₂ : List Char}, a₁ ++ b₁ = a₂ ++ b₂ →
      sep ∉ a₁ → sep ∉ a₂ →
      (b₁.head? = some sep ∨ b₁ = []) → (b₂.head? = some sep ∨ b₂ = []) →
      a₁ = a₂ ∧ b₁ = b₂ := by
  intro a₁
  induction a₁ with
  | nil =>
    intro b₁ a₂ b₂ he _ hs2 hb1 _
    cases a₂ with
    | nil => exact ⟨rfl, he⟩
    | cons d a₂ =>
      simp only [List.nil_append, List.cons_append] at he
      subst he
      rcases hb1 with hb1 | hb1
      · simp only [List.head?_cons, Option.some_inj] at hb1
        exact absurd (hb1 ▸ List.mem_cons_self d _) hs2
      · exact absurd hb1 (List.cons_ne_nil _ _)
  | cons c a₁ ih =>
    intro b₁ a₂ b₂ he hs1 hs2 hb1 hb2
    cases a₂ with
    | nil =>
      simp only [List.cons_append, List.nil_append] at he
      subst he
      rcases hb2 with hb2 | hb2
      · simp only [List.head?_cons, Option.some_inj] at hb2
        exact absurd (hb2 ▸ List.mem_cons_self c _) hs1
      · exact absurd hb2 (List.cons_ne_nil _ _)
    | cons d a₂ =>
      simp only [List.cons_append, List.cons.injEq] at he
      obtain ⟨rfl, he⟩ := he
      have hs1t : sep ∉ a₁ := fun h => hs1 (List.mem_cons_of_mem _ h)
      have hs2t : sep ∉ a₂ := fun h => hs2 (List.mem_cons_of_mem _ h)
      obtain ⟨h1, h2⟩ := ih he hs1t hs2t hb1 hb2
      exact ⟨by rw [h1], h2⟩

theorem displayPath_cons {x : String} {xs : List String} (h : xs ≠ []) :
    displayPath (x :: xs) = x ++ "/" ++ displayPath xs := by
  cases xs with
  | nil => exact absurd rfl h
  | cons y ys => rfl

theorem mem_displayPath_data {c : Char} :
    ∀ {xs : List String}, c ∈ (displayPath xs).data →
      c = '/' ∨ ∃ x ∈ xs, c ∈ x.data := by
  intro xs
  induction xs with
  | nil => intro h; simp [displayPath] at h
  | cons x xs ih =>
    intro h
    cases xs with
    | nil =>
      right
      exact ⟨x, List.mem_cons_self _ _, h⟩
    | cons y ys =>
      rw [displayPath_cons (List.cons_ne_nil y ys), String.data_append,
        String.data_append] at h
      rcases List.mem_append.mp h with h | h
      · rcases List.mem_append.mp h with h | h
        · exact Or.inr ⟨x, List.mem_cons_self _ _, h⟩
        · left
          have : ("/" : String).data = ['/'] := rfl
          rw [this] at h
          simpa using h
      · rcases ih h with h | ⟨z, hz, hc⟩
        · exact Or.inl h
        · exact Or.inr ⟨z, List.mem_cons_of_mem _ hz, hc⟩

theorem displayPath_inj :
    ∀ {xs ys : List String}, xs ≠ [] → ys ≠ [] →
      (∀ x ∈ xs, ¬ '/' ∈ x.data) → (∀ y ∈ ys, ¬ '/' ∈ y.data) →
      displayPath xs = displayPath ys → xs = ys := by
  intro xs
  induction xs with
  | nil => intro ys h; exact absurd rfl h
  | cons x xs ih =>
    intro ys _ hy hxs hys he
    cases ys with
    | nil => exact absurd rfl hy
    | cons y ys =>
      cases xs with
      | nil =>
        cases ys with
        | nil => simpa [displayPath] using he
        | cons z zs =>
          exfalso
          rw [displayPath_cons (List.cons_ne_nil z zs)] at he
          have hmem : '/' ∈ x.data := by
            rw [show displayPath [x] = x from rfl] at he
            rw [he, String.data_append, String.data_append]
            apply List.mem_append.mpr
            left
            apply List.mem_append.mpr
            right
            exact List.mem_cons_self _ _
          exact hxs x (List.mem_cons_self _ _) hmem
      | cons w ws =>
        cases ys with
        | nil =>
          exfalso
          rw [displayPath_cons (List.cons_ne_nil w ws)] at he
          have hmem : '/' ∈ y.data := by
            rw [show displayPath [y] = y from rfl] at he
            rw [← he, String.data_append, String.data_append]
            apply List.mem_append.mpr
            left
            apply List.mem_append.mpr
            right
            exact List.mem_cons_self _ _
          exact hys y (List.mem_cons_self _ _) hmem
        | cons z zs =>
          rw [displayPath_cons (List.cons_ne_nil w ws),
            displayPath_cons (List.cons_ne_nil z zs)] at he
          have hdata := congrArg String.data he
          simp only [String.data_append] at hdata
          rw [List.append_assoc, List.append_assoc] at hdata
          simp only [List.singleton_append] at hdata
          have := sep_split_unique '/' hdata
            (hxs x (List.mem_cons_self _ _)) (hys y (List.mem_cons_self _ _))
            (Or.inl rfl) (Or.inl rfl)
          obtain ⟨h1, h2⟩ := this
          have hx : x = y := String.ext h1
          simp only [List.cons.injEq] at h2

          have hrest : displayPath (w :: ws) = displayPath (z :: zs) :=
            String.ext h2.2
          have := ih (List.cons_ne_nil w ws) (List.cons_ne_nil z zs)
            (fun a ha => hxs a (List.mem_cons_of_mem _ ha))
            (fun a ha => hys a (List.mem_cons_of_mem _ ha)) hrest
          rw [hx, this]

/-- The optional revision suffix appended to a display name. -/
def revSuffix (rev : Option String) : String :=
  (rev.map (fun r => "#" ++ r)).getD ""

theorem goodName_spec {n : String} (h : goodName n = true) :
    '/' ∉ n.data ∧ '#' ∉ n.data := by
  simp only [goodName, Bool.and_eq_true, Bool.not_eq_true'] at h
  exact ⟨by simpa using h.1, by simpa using h.2⟩

theorem no_hash_displayPath {rel : List String}
    (h : ∀ x ∈ rel, goodName x = true) : '#' ∉ (displayPath rel).data := by
  intro hm
  rcases mem_displayPath_data hm with hc | ⟨x, hx, hc⟩
  · exact absurd hc (by decide)
  · exact (goodName_spec (h x hx)).2 hc

theorem no_slash_comps {rel : List String}
    (h : ∀ x ∈ rel, goodName x = true) : ∀ x ∈ rel, ¬ '/' ∈ x.data :=
  fun x hx => (goodName_spec (h x hx)).1

theorem revSuffix_head (rev : Option String) :
    ((revSuffix rev).data.head? = some '#') ∨ (revSuffix rev).data = [] := by
  cases rev with
  | none => right; rfl
  | some r =>
    left
    show (("#" ++ r : String).data.head? = some '#')
    rw [String.data_append]
    rfl

theorem revSuffix_inj {v₁ v₂ : Option String}
    (h : (revSuffix v₁).data = (revSuffix v₂).data) : v₁ = v₂ := by
  cases v₁ with
  | none =>
    cases v₂ with
    | none => rfl
    | some r =>
      exfalso
      have : ([] : List Char) = ("#" ++ r : String).data := h
      rw [String.data_append] at this
      exact List.cons_ne_nil _ _ this.symm
  | some r₁ =>
    cases v₂ with
    | none =>
      exfalso
      have : ("#" ++ r₁ : String).data = ([] : List Char) := h
      rw [String.data_append] at this
      exact List.cons_ne_nil _ _ this
    | some r₂ =>
      have : ("#" ++ r₁ : String).data = ("#" ++ r₂ : String).data := h
      rw [String.data_append, String.data_append] at this
      have : ('#' :: r₁.data : List Char) = '#' :: r₂.data := this
      simp only [List.cons.injEq, true_and] at this
      rw [String.ext this]

theorem mkName_data (mode : Mode) (rel : List String) (rev : Option String) :
    (mkName mode rel rev).data =
      '[' :: ((modeTag mode).data ++
        ']' :: ' ' :: ((displayPath rel).data ++ (revSuffix rev).data)) := by
  show ("[" ++ modeTag mode ++ "] " ++ displayPath rel ++ revSuffix rev).data = _
  simp only [String.data_append, List.append_assoc]
  rfl

theorem modeTag_inj {m₁ m₂ : Mode} (h : modeTag m₁ = modeTag m₂) : m₁ = m₂ := by
  cases m₁ <;> cases m₂ <;> first
    | rfl
    | exact absurd h (by decide)

theorem modeTag_no_bracket (m : Mode) : ']' ∉ (modeTag m).data := by
  cases m <;> decide

theorem mkName_inj_mode {m₁ m₂ : Mode} {r₁ r₂ : List String}
    {v₁ v₂ : Option String} (hm : m₁ ≠ m₂) :
    mkName m₁ r₁ v₁ ≠ mkName m₂ r₂ v₂ := by
  intro he
  have hd := congrArg String.data he
  rw [mkName_data, mkName_data] at hd
  simp only [List.cons.injEq, true_and] at hd
  have := sep_split_unique ']' hd
    (modeTag_no_bracket m₁) (modeTag_no_bracket m₂)
    (Or.inl rfl) (Or.inl rfl)
  exact hm (modeTag_inj (String.ext this.1))

theorem mkName_inj_same_mode {m : Mode} {r₁ r₂ : List String}
    {v₁ v₂ : Option String}
    (h₁ : r₁ ≠ []) (h₂ : r₂ ≠ [])
    (hg₁ : ∀ x ∈ r₁, goodName x = true) (hg₂ : ∀ x ∈ r₂, goodName x = true)
    (he : mkName m r₁ v₁ = mkName m r₂ v₂) : r₁ = r₂ ∧ v₁ = v₂ := by
  have hd := congrArg String.data he
  rw [mkName_data, mkName_data] at hd
  simp only [List.cons.injEq, true_and] at hd
  have hd2 := List.append_cancel_left hd
  simp only [List.cons.injEq, true_and] at hd2
  have := sep_split_unique '#' hd2
    (no_hash_displayPath hg₁) (no_hash_displayPath hg₂)
    ((revSuffix_head v₁).imp_right (fun h => h)) ((revSuffix_head v₂).imp_right (fun h => h))
  refine ⟨?_, revSuffix_inj this.2⟩
  exact displayPath_inj h₁ h₂ (no_slash_comps hg₁) (no_slash_comps hg₂)
    (String.ext this.1)

/-! ## Walk order and distinctness -/

/-- Strict lexicographic order on component paths: components compared
by the bytes of their names, a proper prefix ordered first.  This is
the global order in which the sorted depth-first walk yields paths. -/
def pathLt : List String → List String → Bool
  | [], [] => false
  | [], _ :: _ => true
  | _ :: _, [] => false
  | a :: as, b :: bs =>
    listLt (strBytes a) (strBytes b) ||
      (strBytes a == strBytes b && pathLt as bs)

theorem pathLt_irrefl (p : List String) : pathLt p p = false := by
  induction p with
  | nil => rfl
  | cons x xs ih => simp [pathLt, listLt_irrefl, ih]

theorem pathLt_ne {p q : List String} (h : pathLt p q = true) : p ≠ q := by
  intro he
  subst he
  rw [pathLt_irrefl] at h
  exact Bool.false_ne_true h

theorem pathLt_append_self (p : List String) {suf : List String} (h : suf ≠ []) :
    pathLt p (p ++ suf) = true := by
  induction p with
  | nil =>
    cases suf with
    | nil => exact absurd rfl h
    | cons a as => rfl
  | cons x xs ih => simp [pathLt, listLt_irrefl, ih]

theorem pathLt_head {n₁ n₂ : String} (p : List String) (r₁ r₂ : List String)
    (h : listLt (strBytes n₁) (strBytes n₂) = true) :
    pathLt (p ++ n₁ :: r₁) (p ++ n₂ :: r₂) = true := by
  induction p with
  | nil => simp [pathLt, h]
  | cons x xs ih => simp [pathLt, listLt_irrefl, ih]

theorem listLt_of_le_of_ne {a b : List Nat} (h1 : listLe a b = true)
    (h2 : a ≠ b) : listLt a b = true := by
  induction a generalizing b with
  | nil =>
    cases b with
    | nil => exact absurd rfl h2
    | cons y ys => rfl
  | cons x xs ih =>
    cases b with
    | nil => simp [listLe] at h1
    | cons y ys =>
      simp only [listLe, Bool.or_eq_true, Bool.and_eq_true, decide_eq_true_eq,
        beq_iff_eq] at h1
      simp only [listLt, Bool.or_eq_true, Bool.and_eq_true, decide_eq_true_eq,
        beq_iff_eq]
      rcases h1 with h1 | ⟨h1e, h1r⟩
      · exact Or.inl h1
      · refine Or.inr ⟨h1e, ih h1r ?_⟩
        intro he
        exact h2 (by rw [h1e, he])

instance : IsTotal (String × List Item) kidLe :=
  ⟨fun _ _ => listLe_total _ _⟩

instance : IsTrans (String × List Item) kidLe :=
  ⟨fun _ _ _ h1 h2 => listLe_trans h1 h2⟩

theorem mem_walk_dir {p : List String} {n : String} {cs : List Fs} {e : Item} :
    e ∈ walk p (Fs.dir n cs) ↔
      e = Item.mk p true ∨ ∃ pr ∈ walkKids p cs, e ∈ pr.2 := by
  simp only [walk, List.mem_cons]
  apply or_congr Iff.rfl
  rw [List.mem_flatten]
  constructor
  · rintro ⟨l, hl, hel⟩
    rcases List.mem_map.mp hl with ⟨pr, hpr, rfl⟩
    exact ⟨pr, (List.perm_insertionSort kidLe _).mem_iff.mp hpr, hel⟩
  · rintro ⟨pr, hpr, hel⟩
    exact ⟨pr.2,
      List.mem_map.mpr ⟨pr, (List.perm_insertionSort kidLe _).mem_iff.mpr hpr, rfl⟩,
      hel⟩

theorem walkKids_mem_of {p : List String} {cs : List Fs} {c : Fs} (hc : c ∈ cs) :
    (c.name, walk (p ++ [c.name]) c) ∈ walkKids p cs := by
  induction cs with
  | nil => cases hc
  | cons d ds ih =>
    simp only [walkKids]
    rcases List.mem_cons.mp hc with rfl | hc
    · exact List.mem_cons_self _ _
    · exact List.mem_cons_of_mem _ (ih hc)

theorem walkKids_mem {p : List String} {cs : List Fs}
    {pr : String × List Item} (h : pr ∈ walkKids p cs) :
    ∃ c ∈ cs, pr = (c.name, walk (p ++ [c.name]) c) := by
  induction cs with
  | nil => cases h
  | cons d ds ih =>
    simp only [walkKids, List.mem_cons] at h
    rcases h with rfl | h
    · exact ⟨d, List.mem_cons_self _ _, rfl⟩
    · rcases ih h with ⟨c, hc, he⟩
      exact ⟨c, List.mem_cons_of_mem _ hc, he⟩

theorem walkKids_keys (p : List String) (cs : List Fs) :
    (walkKids p cs).map Prod.fst = cs.map Fs.name := by
  induction cs with
  | nil => rfl
  | cons d ds ih => simp [walkKids, ih]

theorem Wf_name {t : Fs} (h : Wf t = true) : goodName t.name = true := by
  cases t with
  | file n c => exact h
  | dir n cs =>
    simp only [Wf, Bool.and_eq_true] at h
    exact h.1.1

theorem WfKids_mem {cs : List Fs} {c : Fs} (h : WfKids cs = true)
    (hc : c ∈ cs) : Wf c = true := by
  induction cs with
  | nil => cases hc
  | cons d ds ih =>
    simp only [WfKids, Bool.and_eq_true] at h
    rcases List.mem_cons.mp hc with rfl | hc
    · exact h.1
    · exact ih h.2 hc

mutual

theorem walk_shape (p : List String) (t : Fs) (hw : Wf t = true) :
    ∀ e ∈ walk p t, ∃ suf, e.path = p ++ suf ∧ ∀ x ∈ suf, goodName x = true := by
  cases t with
  | file n c =>
    intro e he
    simp only [walk, List.mem_singleton] at he
    subst he
    exact ⟨[], by simp, by simp⟩
  | dir n cs =>
    intro e he
    simp only [Wf, Bool.and_eq_true] at hw
    rcases mem_walk_dir.mp he with rfl | ⟨pr, hpr, hel⟩
    · exact ⟨[], by simp, by simp⟩
    · obtain ⟨hg, hrest⟩ := walkKids_shape p cs hw.1.2 pr hpr
      obtain ⟨rest, hpath, hgood⟩ := hrest e hel
      refine ⟨pr.1 :: rest, hpath, ?_⟩
      intro x hx
      rcases List.mem_cons.mp hx with rfl | hx
      · exact hg
      · exact hgood x hx

theorem walkKids_shape (p : List String) (cs : List Fs) (hw : WfKids cs = true) :
    ∀ pr ∈ walkKids p cs, goodName pr.1 = true ∧
      ∀ e ∈ pr.2, ∃ rest, e.path = p ++ pr.1 :: rest ∧
        ∀ x ∈ rest, goodName x = true := by
  cases cs with
  | nil => intro pr hpr; cases hpr
  | cons c cs =>
    intro pr hpr
    simp only [WfKids, Bool.and_eq_true] at hw
    simp only [walkKids, List.mem_cons] at hpr
    rcases hpr with rfl | hpr
    · refine ⟨Wf_name hw.1, ?_⟩
      intro e he
      obtain ⟨suf, hpath, hgood⟩ := walk_shape (p ++ [c.name]) c hw.1 e he
      exact ⟨suf, by simpa [List.append_assoc] using hpath, hgood⟩
    · exact walkKids_shape p cs hw.2 pr hpr

end

theorem namesOk_spec {cs : List Fs} (h : namesOk cs = true) :
    (walkKids p cs).Pairwise (fun a b => strBytes a.1 ≠ strBytes b.1) := by
  have h2 := of_decide_eq_true h
  have hkeys : (walkKids p cs).map (fun pr => strBytes pr.1) =
      cs.map (fun c => strBytes c.name) := by
    have := congrArg (List.map strBytes) (walkKids_keys p cs)
    simpa [List.map_map, Function.comp] using this
  rw [← hkeys] at h2
  exact List.pairwise_map.mp h2

mutual

theorem walk_sorted (p : List String) (t : Fs) (hw : Wf t = true) :
    (walk p t).Pairwise (fun a b => pathLt a.path b.path = true) := by
  cases t with
  | file n c =>
    simp only [walk]
    exact List.pairwise_singleton _ _
  | dir n cs =>
    simp only [Wf, Bool.and_eq_true] at hw
    obtain ⟨⟨hgn, hwk⟩, hno⟩ := hw
    have hperm := List.perm_insertionSort kidLe (walkKids p cs)
    have hsort : ((walkKids p cs).insertionSort kidLe).Pairwise kidLe :=
      List.sorted_insertionSort kidLe (walkKids p cs)
    have hkeysS : ((walkKids p cs).insertionSort kidLe).Pairwise
        (fun a b => strBytes a.1 ≠ strBytes b.1) :=
      (hperm.pairwise_iff (fun h => h.symm)).mpr (namesOk_spec hno)
    have hstrict : ((walkKids p cs).insertionSort kidLe).Pairwise
        (fun a b => listLt (strBytes a.1) (strBytes b.1) = true) :=
      (hsort.and hkeysS).imp (fun h => listLt_of_le_of_ne h.1 h.2)
    have hshape : ∀ pr ∈ (walkKids p cs).insertionSort kidLe,
        goodName pr.1 = true ∧ ∀ e ∈ pr.2, ∃ rest, e.path = p ++ pr.1 :: rest ∧
          ∀ x ∈ rest, goodName x = true :=
      fun pr hpr => walkKids_shape p cs hwk pr (hperm.mem_iff.mp hpr)
    have hin : ∀ pr ∈ (walkKids p cs).insertionSort kidLe,
        pr.2.Pairwise (fun a b => pathLt a.path b.path = true) :=
      fun pr hpr => walkKids_sorted p cs hwk pr (hperm.mem_iff.mp hpr)
    have hcross : ((walkKids p cs).insertionSort kidLe).Pairwise
        (fun pr₁ pr₂ => ∀ x ∈ pr₁.2, ∀ y ∈ pr₂.2,
          pathLt x.path y.path = true) := by
      refine hstrict.imp_of_mem ?_
      intro pr₁ pr₂ h₁ h₂ hlt x hx y hy
      obtain ⟨r₁, hp₁, _⟩ := (hshape pr₁ h₁).2 x hx
      obtain ⟨r₂, hp₂, _⟩ := (hshape pr₂ h₂).2 y hy
      rw [hp₁, hp₂]
      exact pathLt_head p r₁ r₂ hlt
    have hflat : ((((walkKids p cs).insertionSort kidLe).map Prod.snd).flatten).Pairwise
        (fun a b => pathLt a.path b.path = true) := by
      rw [List.pairwise_flatten]
      constructor
      · intro l hl
        rcases List.mem_map.mp hl with ⟨pr, hpr, rfl⟩
        exact hin pr hpr
      · rw [List.pairwise_map]
        exact hcross
    simp only [walk]
    rw [List.pairwise_cons]
    refine ⟨?_, hflat⟩
    intro e he
    rcases List.mem_flatten.mp he with ⟨l, hl, hel⟩
    rcases List.mem_map.mp hl with ⟨pr, hpr, rfl⟩
    obtain ⟨rest, hpath, _⟩ := (hshape pr hpr).2 e hel
    show pathLt p e.path = true
    rw [hpath]
    exact pathLt_append_self p (List.cons_ne_nil _ _)

theorem walkKids_sorted (p : List String) (cs : List Fs) (hw : WfKids cs = true) :
    ∀ pr ∈ walkKids p cs,
      pr.2.Pairwise (fun a b => pathLt a.path b.path = true) := by
  cases cs with
  | nil => intro pr hpr; cases hpr
  | cons c cs =>
    intro pr hpr
    simp only [WfKids, Bool.and_eq_true] at hw
    simp only [walkKids, List.mem_cons] at hpr
    rcases hpr with rfl | hpr
    · exact walk_sorted (p ++ [c.name]) c hw.1
    · exact walkKids_sorted p cs hw.2 pr hpr

end

theorem walk_paths_ne {p : List String} {t : Fs} (hw : Wf t = true) :
    (walk p t).Pairwise (fun a b => a.path ≠ b.path) :=
  (walk_sorted p t hw).imp (fun h => pathLt_ne h)

theorem navigate_append (q₁ q₂ : List String) (t : Fs) :
    navigate (q₁ ++ q₂) t = (navigate q₁ t).bind (navigate q₂) := by
  induction q₁ generalizing t with
  | nil => simp [navigate]
  | cons n q ih =>
    cases t with
    | file a b => rfl
    | dir a cs =>
      show navigate (n :: (q ++ q₂)) (Fs.dir a cs) = _
      simp only [navigate]
      cases hf : cs.find? (fun c => c.name == n) with
      | none => rfl
      | some c => exact ih c

theorem walk_navigate_mem :
    ∀ {q : List String} {t s : Fs} {p : List String} {e : Item},
      navigate q t = some s → e ∈ walk (p ++ q) s → e ∈ walk p t := by
  intro q
  induction q with
  | nil =>
    intro t s p e hn he
    simp only [navigate, Option.some_inj] at hn
    subst hn
    simpa using he
  | cons n q ih =>
    intro t s p e hn he
    cases t with
    | file a b => simp [navigate] at hn
    | dir a cs =>
      simp only [navigate] at hn
      cases hf : cs.find? (fun c => c.name == n) with
      | none =>
        rw [hf] at hn
        cases hn
      | some c =>
        rw [hf] at hn
        have hcm : c ∈ cs := List.mem_of_find?_eq_some hf
        have hname : c.name = n := by
          have := List.find?_some hf
          simpa using this
        have he2 : e ∈ walk ((p ++ [n]) ++ q) s := by
          simpa [List.append_assoc] using he
        have hmem : e ∈ walk (p ++ [n]) c := ih hn he2
        apply mem_walk_dir.mpr
        right
        refine ⟨(c.name, walk (p ++ [c.name]) c), walkKids_mem_of hcm, ?_⟩
        show e ∈ walk (p ++ [c.name]) c
        rw [hname]
        exact hmem

/-! ## Option mapM structure -/

theorem mapM_eq_some {α β : Type} {f : α → Option β} :
    ∀ {xs : List α} {ys : List β}, xs.mapM f = some ys →
      List.Forall₂ (fun x y => f x = some y) xs ys := by
  intro xs
  induction xs with
  | nil =>
    intro ys h
    simp only [List.mapM_nil, pure, Option.some_inj] at h
    subst h
    exact List.Forall₂.nil
  | cons x xs ih =>
    intro ys h
    rw [List.mapM_cons] at h
    cases hf : f x with
    | none => rw [hf] at h; simp at h
    | some y =>
      rw [hf] at h
      cases hm : xs.mapM f with
      | none => rw [hm] at h; simp at h
      | some ys2 =>
        rw [hm] at h
        have h2 : y :: ys2 = ys := by
          simpa using h
        subst h2
        exact List.Forall₂.cons hf (ih hm)

theorem forall2_mem_left {α β : Type} {R : α → β → Prop} :
    ∀ {xs : List α} {ys : List β}, List.Forall₂ R xs ys →
      ∀ {x}, x ∈ xs → ∃ y ∈ ys, R x y := by
  intro xs
  induction xs with
  | nil => intro ys h x hx; cases hx
  | cons a xs ih =>
    intro ys h x hx
    cases h with
    | cons hab h2 =>
      rcases List.mem_cons.mp hx with rfl | hx
      · exact ⟨_, List.mem_cons_self _ _, hab⟩
      · rcases ih h2 hx with ⟨y, hy, hr⟩
        exact ⟨y, List.mem_cons_of_mem _ hy, hr⟩

theorem forall2_mem_right {α β : Type} {R : α → β → Prop} :
    ∀ {xs : List α} {ys : List β}, List.Forall₂ R xs ys →
      ∀ {y}, y ∈ ys → ∃ x ∈ xs, R x y := by
  intro xs
  induction xs with
  | nil =>
    intro ys h y hy
    cases h
    cases hy
  | cons a xs ih =>
    intro ys h y hy
    cases h with
    | cons hab h2 =>
      rcases List.mem_cons.mp hy with rfl | hy
      · exact ⟨a, List.mem_cons_self _ _, hab⟩
      · rcases ih h2 hy with ⟨x, hx, hr⟩
        exact ⟨x, List.mem_cons_of_mem _ hx, hr⟩

theorem forall2_pairwise {α β : Type} {R : α → β → Prop} {P : α → α → Prop}
    {Q : β → β → Prop}
    (hmono : ∀ {x₁ x₂ y₁ y₂}, R x₁ y₁ → R x₂ y₂ → P x₁ x₂ → Q y₁ y₂) :
    ∀ {xs : List α} {ys : List β}, List.Forall₂ R xs ys →
      xs.Pairwise P → ys.Pairwise Q := by
  intro xs
  induction xs with
  | nil =>
    intro ys h hp
    cases h
    exact List.Pairwise.nil
  | cons a xs ih =>
    intro ys h hp
    cases h with
    | cons hab h2 =>
      rw [List.pairwise_cons] at hp
      refine List.pairwise_cons.mpr ⟨?_, ih h2 hp.2⟩
      intro y hy
      rcases forall2_mem_right h2 hy with ⟨x, hx, hr⟩
      exact hmono hab hr (hp.1 x hx)

theorem stripRoot_append (a b : List String) : stripRoot a (a ++ b) = some b := by
  unfold stripRoot
  rw [if_pos (List.isPrefixOf_iff_prefix.mpr (List.prefix_append a b))]
  rw [List.drop_left]

/-! ## Structure of make_test and the fan-out -/

theorem make_test_none_iff {Props : Type} {nightly : Bool} {config : Config}
    {t : Fs} {fns : TestFns Props} {load : String → Option String → Props}
    {mode : Mode} {path : List String} {rev : Option String} :
    make_test nightly config t fns load mode path rev = none ↔
      parentOf ((stripRoot config.root path).getD path) = none := by
  cases hp : parentOf ((stripRoot config.root path).getD path) with
  | none => simp [make_test, hp]
  | some rd => simp [make_test, hp]

theorem make_test_name {Props : Type} {nightly : Bool} {config : Config}
    {t : Fs} {fns : TestFns Props} {load : String → Option String → Props}
    {mode : Mode} {path : List String} {rev : Option String} {d : TestDescAndFn}
    (h : make_test nightly config t fns load mode path rev = some d) :
    d.desc.name = mkName mode ((stripRoot config.root path).getD path) rev := by
  cases hp : parentOf ((stripRoot config.root path).getD path) with
  | none =>
    simp only [make_test, hp] at h
    cases h
  | some rd =>
    simp only [make_test, hp, Option.some_inj] at h
    subst h
    rfl

theorem make_test_skip {Props : Type} {nightly : Bool} {config : Config}
    {t : Fs} {fns : TestFns Props} {load : String → Option String → Props}
    {mode : Mode} {path : List String} {rev : Option String} {d : TestDescAndFn}
    {reason : String}
    (hck : fns.check config path = .Skipped reason)
    (h : make_test nightly config t fns load mode path rev = some d) :
    d.desc.ignore = true ∧
      d.desc.ignoreMessage = (if nightly then some reason else none) := by
  cases hp : parentOf ((stripRoot config.root path).getD path) with
  | none =>
    simp only [make_test, hp] at h
    cases h
  | some rd =>
    simp only [make_test, hp, Option.some_inj] at h
    subst h
    simp [hck]

theorem casesFor_ui_revs {Props : Type} {nightly : Bool} {config : Config}
    {t : Fs} {fns : TestFns Props} {load : String → Option String → Props}
    {lr : List String → List String} {path : List String} {r : String}
    {rs : List String} (hrev : lr path = r :: rs) :
    casesFor nightly config t fns load lr Mode.Ui path =
      (r :: rs).mapM
        (fun rev => make_test nightly config t fns load Mode.Ui path (some rev)) := by
  simp [casesFor, hrev]

theorem casesFor_ui_empty {Props : Type} {nightly : Bool} {config : Config}
    {t : Fs} {fns : TestFns Props} {load : String → Option String → Props}
    {lr : List String → List String} {path : List String} (hrev : lr path = []) :
    casesFor nightly config t fns load lr Mode.Ui path =
      (make_test nightly config t fns load Mode.Ui path none).map (fun d => [d]) := by
  simp [casesFor, hrev]

theorem casesFor_non_ui {Props : Type} {nightly : Bool} {config : Config}
    {t : Fs} {fns : TestFns Props} {load : String → Option String → Props}
    {lr : List String → List String} {path : List String} {mode : Mode}
    (hm : mode ≠ Mode.Ui) :
    casesFor nightly config t fns load lr mode path =
      (make_test nightly config t fns load mode path none).map (fun d => [d]) := by
  cases mode with
  | Ui => exact absurd rfl hm
  | SolcSolidity => simp [casesFor]
  | SolcYul => simp [casesFor]

theorem casesFor_mem {Props : Type} {nightly : Bool} {config : Config}
    {t : Fs} {fns : TestFns Props} {load : String → Option String → Props}
    {lr : List String → List String} {path : List String} {mode : Mode}
    {l : List TestDescAndFn} {d : TestDescAndFn}
    (hc : casesFor nightly config t fns load lr mode path = some l)
    (hd : d ∈ l) :
    ∃ rev, make_test nightly config t fns load mode path rev = some d := by
  by_cases hm : mode = Mode.Ui
  · subst hm
    cases hrev : lr path with
    | nil =>
      rw [casesFor_ui_empty hrev] at hc
      cases hmk : make_test nightly config t fns load Mode.Ui path none with
      | none => rw [hmk] at hc; cases hc
      | some d0 =>
        rw [hmk] at hc
        simp only [Option.map_some', Option.some_inj] at hc
        subst hc
        rcases List.mem_singleton.mp hd with rfl
        exact ⟨none, hmk⟩
    | cons r rs =>
      rw [casesFor_ui_revs hrev] at hc
      rcases forall2_mem_right (mapM_eq_some hc) hd with ⟨rev, _, hr⟩
      exact ⟨some rev, hr⟩
  · rw [casesFor_non_ui hm] at hc
    cases hmk : make_test nightly config t fns load mode path none with
    | none => rw [hmk] at hc; cases hc
    | some d0 =>
      rw [hmk] at hc
      simp only [Option.map_some', Option.some_inj] at hc
      subst hc
      rcases List.mem_singleton.mp hd with rfl
      exact ⟨none, hmk⟩

theorem casesFor_pairwise {Props : Type} {nightly : Bool} {config : Config}
    {t : Fs} {fns : TestFns Props} {load : String → Option String → Props}
    {lr : List String → List String} {path : List String} {mode : Mode}
    {l : List TestDescAndFn}
    (hne : (stripRoot config.root path).getD path ≠ [])
    (hgood : ∀ x ∈ (stripRoot config.root path).getD path, goodName x = true)
    (hrev : (lr path).Pairwise (· ≠ ·))
    (hc : casesFor nightly config t fns load lr mode path = some l) :
    l.Pairwise (fun a b => a.desc.name ≠ b.desc.name) := by
  by_cases hm : mode = Mode.Ui
  · subst hm
    cases hrevs : lr path with
    | nil =>
      rw [casesFor_ui_empty hrevs] at hc
      cases hmk : make_test nightly config t fns load Mode.Ui path none with
      | none => rw [hmk] at hc; cases hc
      | some d0 =>
        rw [hmk] at hc
        simp only [Option.map_some', Option.some_inj] at hc
        subst hc
        exact List.pairwise_singleton _ _
    | cons r rs =>
      rw [casesFor_ui_revs hrevs] at hc
      rw [hrevs] at hrev
      refine forall2_pairwise ?_ (mapM_eq_some hc) hrev
      intro r₁ r₂ d₁ d₂ h₁ h₂ hne12 heq
      have hn₁ := make_test_name h₁
      have hn₂ := make_test_name h₂
      rw [heq] at hn₁
      have := mkName_inj_same_mode hne hne hgood hgood (hn₂.symm.trans hn₁)
      simp only [Option.some_inj] at this
      exact hne12 this.2.symm
  · rw [casesFor_non_ui hm] at hc
    cases hmk : make_test nightly config t fns load mode path none with
    | none => rw [hmk] at hc; cases hc
    | some d0 =>
      rw [hmk] at hc
      simp only [Option.map_some', Option.some_inj] at hc
      subst hc
      exact List.pairwise_singleton _ _

theorem Wf_navigate :
    ∀ {q : List String} {t s : Fs}, Wf t = true → navigate q t = some s →
      Wf s = true := by
  intro q
  induction q with
  | nil =>
    intro t s hw hn
    simp only [navigate, Option.some_inj] at hn
    subst hn
    exact hw
  | cons n q ih =>
    intro t s hw hn
    cases t with
    | file a b => simp [navigate] at hn
    | dir a cs =>
      simp only [navigate] at hn
      cases hf : cs.find? (fun c => c.name == n) with
      | none =>
        rw [hf] at hn
        cases hn
      | some c =>
        rw [hf] at hn
        have hwc : Wf c = true := by
          simp only [Wf, Bool.and_eq_true] at hw
          exact WfKids_mem hw.1.2 (List.mem_of_find?_eq_some hf)
        exact ih hwc hn

theorem modeRoot_ne_nil (mode : Mode) : modeRoot mode ≠ [] := by
  cases mode <;> simp [modeRoot]

theorem modeRoot_good (mode : Mode) : ∀ x ∈ modeRoot mode, goodName x = true := by
  cases mode <;> decide

theorem forall2_strengthen {α β : Type} {R S : α → β → Prop} :
    ∀ {xs : List α} {ys : List β}, List.Forall₂ R xs ys →
      (∀ x ∈ xs, ∀ y, R x y → S x y) → List.Forall₂ S xs ys := by
  intro xs
  induction xs with
  | nil =>
    intro ys h hsub
    cases h
    exact List.Forall₂.nil
  | cons a xs ih =>
    intro ys h hsub
    cases h with
    | cons hab h2 =>
      exact List.Forall₂.cons (hsub a (List.mem_cons_self _ _) _ hab)
        (ih h2 (fun x hx => hsub x (List.mem_cons_of_mem _ hx)))

/-! ## Structure of collect_tests, make_tests and run_tests -/

theorem collect_tests_struct {config : Config} {t : Fs} {mode : Mode}
    {inputs : List Item}
    (hc : collect_tests config t mode = some inputs) :
    ∃ sub, navigate (modeRoot mode) t = some sub ∧
      inputs = (walk (config.root ++ modeRoot mode) sub).filter
        (fun e => extMatch mode e.path) := by
  cases hnav : navigate (modeRoot mode) t with
  | none =>
    simp only [collect_tests, hnav] at hc
    cases hc
  | some sub =>
    simp only [collect_tests, hnav, Option.some_inj] at hc
    exact ⟨sub, rfl, hc.symm⟩

theorem collect_input_rel {config : Config} {t : Fs} {mode : Mode}
    {inputs : List Item} (hwf : Wf t = true)
    (hc : collect_tests config t mode = some inputs) :
    ∀ e ∈ inputs, ∃ rel, stripRoot config.root e.path = some rel ∧
      e.path = config.root ++ rel ∧ rel ≠ [] ∧
      ∀ x ∈ rel, goodName x = true := by
  intro e he
  obtain ⟨sub, hnav, rfl⟩ := collect_tests_struct hc
  have hew : e ∈ walk (config.root ++ modeRoot mode) sub :=
    (List.mem_filter.mp he).1
  obtain ⟨suf, hpath, hgood⟩ :=
    walk_shape _ sub (Wf_navigate hwf hnav) e hew
  refine ⟨modeRoot mode ++ suf, ?_, ?_, ?_, ?_⟩
  · rw [hpath, List.append_assoc]
    exact stripRoot_append _ _
  · rw [hpath, List.append_assoc]
  · intro hnil
    exact modeRoot_ne_nil mode (List.append_eq_nil.mp hnil).1
  · intro x hx
    rcases List.mem_append.mp hx with hx | hx
    · exact modeRoot_good mode x hx
    · exact hgood x hx

theorem collect_pairwise {config : Config} {t : Fs} {mode : Mode}
    {inputs : List Item} (hwf : Wf t = true)
    (hc : collect_tests config t mode = some inputs) :
    inputs.Pairwise (fun a b => a.path ≠ b.path) := by
  obtain ⟨sub, hnav, rfl⟩ := collect_tests_struct hc
  exact (walk_paths_ne (Wf_navigate hwf hnav)).filter _

theorem make_tests_struct {Props : Type} {nightly : Bool} {config : Config}
    {t : Fs} {fnsOf : Mode → TestFns Props}
    {lp lsp : String → Option String → Props}
    {lr : List String → List String} {mode : Mode} {lm : List TestDescAndFn}
    (hmk : make_tests nightly config t fnsOf lp lsp lr mode = some lm) :
    ∃ inputs blocks,
      collect_tests config t mode = some inputs ∧
      List.Forall₂ (fun (input : Item) bl =>
        casesFor nightly config t (fnsOf mode)
          (if mode.solc_props then lsp else lp) lr mode input.path = some bl)
        inputs blocks ∧
      lm = blocks.flatten := by
  cases hcol : collect_tests config t mode with
  | none =>
    simp only [make_tests, hcol] at hmk
    cases hmk
  | some inputs =>
    simp only [make_tests, hcol] at hmk
    cases hmm : inputs.mapM (fun input =>
        casesFor nightly config t (fnsOf mode)
          (if mode.solc_props then lsp else lp) lr mode input.path) with
    | none =>
      rw [hmm] at hmk
      cases hmk
    | some blocks =>
      rw [hmm] at hmk
      simp only [Option.map_some', Option.some_inj] at hmk
      exact ⟨inputs, blocks, rfl, mapM_eq_some hmm, hmk.symm⟩

theorem make_tests_pairwise {Props : Type} {nightly : Bool} {config : Config}
    {t : Fs} {fnsOf : Mode → TestFns Props}
    {lp lsp : String → Option String → Props}
    {lr : List String → List String} {mode : Mode} {lm : List TestDescAndFn}
    (hwf : Wf t = true)
    (hrev : ∀ p, (lr p).Pairwise (fun a b => a ≠ b))
    (hmk : make_tests nightly config t fnsOf lp lsp lr mode = some lm) :
    lm.Pairwise (fun a b => a.desc.name ≠ b.desc.name) := by
  obtain ⟨inputs, blocks, hcol, hfa, rfl⟩ := make_tests_struct hmk
  have hrelfacts := collect_input_rel hwf hcol
  have hpw := collect_pairwise hwf hcol
  rw [List.pairwise_flatten]
  constructor
  · intro bl hbl
    rcases forall2_mem_right hfa hbl with ⟨e, he, hcf⟩
    obtain ⟨rel, hstrip, hpath, hrelne, hrelgood⟩ := hrelfacts e he
    have hgetD : (stripRoot config.root e.path).getD e.path = rel := by
      rw [hstrip]
      rfl
    refine casesFor_pairwise ?_ ?_ (hrev e.path) hcf
    · rw [hgetD]
      exact hrelne
    · rw [hgetD]
      exact hrelgood
  · have hfa2 : List.Forall₂ (fun (e : Item) bl =>
        ∃ rel, e.path = config.root ++ rel ∧ rel ≠ [] ∧
          (∀ x ∈ rel, goodName x = true) ∧
          ∀ d ∈ bl, ∃ rev, d.desc.name = mkName mode rel rev)
        inputs blocks := by
      refine forall2_strengthen hfa ?_
      intro e he bl hcf
      obtain ⟨rel, hstrip, hpath, hrelne, hrelgood⟩ := hrelfacts e he
      have hgetD : (stripRoot config.root e.path).getD e.path = rel := by
        rw [hstrip]
        rfl
      refine ⟨rel, hpath, hrelne, hrelgood, ?_⟩
      intro d hd
      rcases casesFor_mem hcf hd with ⟨rev, hmt⟩
      exact ⟨rev, by rw [make_test_name hmt, hgetD]⟩
    refine forall2_pairwise ?_ hfa2 hpw
    intro e₁ e₂ bl₁ bl₂ h₁ h₂ hne d₁ hd₁ d₂ hd₂
    obtain ⟨rel₁, hp₁, hne₁, hg₁, hn₁⟩ := h₁
    obtain ⟨rel₂, hp₂, hne₂, hg₂, hn₂⟩ := h₂
    obtain ⟨rev₁, hname₁⟩ := hn₁ d₁ hd₁
    obtain ⟨rev₂, hname₂⟩ := hn₂ d₂ hd₂
    rw [hname₁, hname₂]
    intro heq
    obtain ⟨hrel, _⟩ := mkName_inj_same_mode hne₁ hne₂ hg₁ hg₂ heq
    apply hne
    rw [hp₁, hp₂, hrel]

theorem make_tests_name_shape {Props : Type} {nightly : Bool} {config : Config}
    {t : Fs} {fnsOf : Mode → TestFns Props}
    {lp lsp : String → Option String → Props}
    {lr : List String → List String} {mode : Mode} {lm : List TestDescAndFn}
    {d : TestDescAndFn}
    (hmk : make_tests nightly config t fnsOf lp lsp lr mode = some lm)
    (hd : d ∈ lm) :
    ∃ rel rev, d.desc.name = mkName mode rel rev := by
  obtain ⟨inputs, blocks, hcol, hfa, rfl⟩ := make_tests_struct hmk
  rcases List.mem_flatten.mp hd with ⟨bl, hbl, hdbl⟩
  rcases forall2_mem_right hfa hbl with ⟨e, he, hcf⟩
  rcases casesFor_mem hcf hdbl with ⟨rev, hmt⟩
  exact ⟨_, rev, make_test_name hmt⟩

theorem run_tests_struct {Props : Type} {nightly : Bool} {modeVar : Option String}
    {config : Config} {t : Fs} {fnsOf : Mode → TestFns Props}
    {lp lsp : String → Option String → Props}
    {lr : List String → List String} {l : List TestDescAndFn}
    (hrun : run_tests nightly modeVar config t fnsOf lp lsp lr = .ok l) :
    ∃ modes perMode, activeModes modeVar = .ok modes ∧
      List.Forall₂ (fun mode lm =>
        make_tests nightly config t fnsOf lp lsp lr mode = some lm)
        modes perMode ∧
      l = perMode.flatten.insertionSort nameLe := by
  cases ham : activeModes modeVar with
  | error e =>
    simp only [run_tests, ham] at hrun
    cases hrun
  | ok modes =>
    simp only [run_tests, ham] at hrun
    cases hmm : modes.mapM (fun mode =>
        make_tests nightly config t fnsOf lp lsp lr mode) with
    | none =>
      rw [hmm] at hrun
      cases hrun
    | some perMode =>
      rw [hmm] at hrun
      simp only [Except.ok.injEq] at hrun
      exact ⟨modes, perMode, rfl, mapM_eq_some hmm, hrun.symm⟩

theorem activeModes_nodup {modeVar : Option String} {modes : List Mode}
    (h : activeModes modeVar = .ok modes) :
    modes.Pairwise (fun a b => a ≠ b) := by
  cases modeVar with
  | none =>
    simp only [activeModes, Except.ok.injEq] at h
    subst h
    decide
  | some s =>
    simp only [activeModes] at h
    cases hp : parseMode s with
    | none =>
      rw [hp] at h
      cases h
    | some m =>
      rw [hp] at h
      simp only [Except.ok.injEq] at h
      subst h
      exact List.pairwise_singleton _ _

/-! ## Concrete instances used in witnesses and counterexamples -/

def cfgW : Config :=
  { cmd := ["bin", "compiler"], root := ["r"],
    build_base := ["r", "target", "tester"], verbose := false, bless := false }

def treeW : Fs := Fs.dir "r"
  [Fs.dir "tests" [Fs.dir "ui"
    [Fs.file "a.sol" "contract A {}",
     Fs.dir "a" [Fs.file "b.sol" "contract B {}", Fs.file "c.sol" "contract C {}"]]],
   Fs.dir "testdata" [Fs.dir "solidity" [Fs.dir "test"
     [Fs.file "top.sol" "contract T {}",
      Fs.dir "libyul" [Fs.file "s.sol" "contract S {}",
        Fs.file "y.yul" "object Y {}"]]]]]

def fnsW : TestFns Unit :=
  { check := fun _ _ => TestResult.Passed, run := fun _ => TestResult.Passed }

def fnsSkip : TestFns Unit :=
  { check := fun _ _ => TestResult.Skipped "reason X",
    run := fun _ => TestResult.Passed }

def fnsSkipRun : TestFns Unit :=
  { check := fun _ _ => TestResult.Passed,
    run := fun _ => TestResult.Skipped "slow" }

def ldW : String → Option String → Unit := fun _ _ => ()

def lrW : List String → List String := fun p =>
  if p = ["r", "tests", "ui", "a", "c.sol"] then ["legacy", "default"] else []

/-! ## Claim C2 -/

/-- C2: every TestCase built for a fixture under the project root is
named with the bracketed mode tag, a space, the fixture path relative
to the root, and a hash-prefixed revision suffix exactly when a
revision is present. -/
theorem C2_display_name {Props : Type} (nightly : Bool) (config : Config)
    (t : Fs) (fns : TestFns Props) (load : String → Option String → Props)
    (mode : Mode) (suf : List String) (rev : Option String) (d : TestDescAndFn)
    (hd : make_test nightly config t fns load mode (config.root ++ suf) rev =
      some d) :
    d.desc.name = "[" ++ modeTag mode ++ "] " ++ displayPath suf ++
      (match rev with | some r => "#" ++ r | none => "") := by
  have h := make_test_name hd
  simp only [stripRoot_append, Option.getD_some] at h
  rw [h]
  cases rev <;> rfl

def dC2 : TestDescAndFn :=
  (make_test true cfgW treeW fnsW ldW Mode.Ui
    (cfgW.root ++ ["a", "b.sol"]) none).getD
    ⟨⟨"", false, none⟩, RunOutcome.ok⟩

theorem C2_display_name_witness :
    (make_test true cfgW treeW fnsW ldW Mode.Ui
        (cfgW.root ++ ["a", "b.sol"]) none).map (fun d => d.desc.name) =
      some "[ui] a/b.sol" := by
  have h : make_test true cfgW treeW fnsW ldW Mode.Ui
      (cfgW.root ++ ["a", "b.sol"]) none = some dC2 := by rfl
  rw [h, Option.map_some',
    C2_display_name true cfgW treeW fnsW ldW Mode.Ui ["a", "b.sol"] none dC2 h]
  rfl

/-! ## Claim C9 -/

/-- C9: the TESTER_MODE override recognizes exactly the closed tag set;
an unrecognized value aborts the run with a diagnostic before any
discovery (for every fixture tree); a recognized tag restricts the
active mode list to that single mode; an absent variable leaves all
three modes active. -/
theorem C9_mode_env (s : String) :
    (parseMode s = none ↔ s ≠ "ui" ∧ s ≠ "solc-solidity" ∧ s ≠ "solc-yul") ∧
    (parseMode s = none →
      ∀ {Props : Type} (nightly : Bool) (config : Config) (t : Fs)
        (fnsOf : Mode → TestFns Props) (lp lsp : String → Option String → Props)
        (lr : List String → List String),
        run_tests nightly (some s) config t fnsOf lp lsp lr =
          Except.error ("unknown mode: " ++ s)) ∧
    (∀ m, parseMode s = some m → activeModes (some s) = Except.ok [m]) ∧
    activeModes none =
      Except.ok [Mode.Ui, Mode.SolcSolidity, Mode.SolcYul] := by
  refine ⟨?_, ?_, ?_, rfl⟩
  · unfold parseMode
    by_cases h1 : s = "ui"
    · simp [h1]
    · by_cases h2 : s = "solc-solidity"
      · simp [h1, h2]
      · by_cases h3 : s = "solc-yul"
        · simp [h1, h2, h3]
        · simp [h1, h2, h3]
  · intro hp Props nightly config t fnsOf lp lsp lr
    simp [run_tests, activeModes, hp]
  · intro m hp
    simp [activeModes, hp]

theorem C9_mode_env_witness :
    run_tests true (some "bogus") cfgW treeW
      (fun _ => fnsW) ldW ldW lrW = Except.error "unknown mode: bogus" := by
  have h := (C9_mode_env "bogus").2.1 (by decide) true cfgW treeW
    (fun _ => fnsW) ldW ldW lrW
  simpa using h

/-! ## Claim C7 (corrected) -/

/-- C7 counterexample: for a fixture path that is not under the
project root, the descriptor builder does not abort; it silently falls
back to the full path, contradicting the claimed fatal failure. -/
theorem C7_counterexample :
    stripRoot cfgW.root ["x", "a.sol"] = none ∧
    (make_test true cfgW treeW fnsW ldW Mode.Ui
        ["x", "a.sol"] none).map (fun d => d.desc.name) =
      some "[ui] x/a.sol" := by
  exact ⟨rfl, rfl⟩

/-- C7 (amended): the builder aborts exactly when the path relative to
the root, or the full path when the fixture is not under the root, has
no parent; a fixture outside the root is not fatal and its full path is
used for the display name. -/
theorem C7_relative_dir {Props : Type} (nightly : Bool) (config : Config)
    (t : Fs) (fns : TestFns Props) (load : String → Option String → Props)
    (mode : Mode) (path : List String) (rev : Option String) :
    (make_test nightly config t fns load mode path rev = none ↔
      parentOf ((stripRoot config.root path).getD path) = none) ∧
    (stripRoot config.root path = none →
      ∀ d, make_test nightly config t fns load mode path rev = some d →
        d.desc.name = mkName mode path rev) := by
  refine ⟨make_test_none_iff, ?_⟩
  intro hs d hd
  have h := make_test_name hd
  rw [hs] at h
  simpa using h

def dC7 : TestDescAndFn :=
  (make_test true cfgW treeW fnsW ldW Mode.Ui
    ["x", "a.sol"] none).getD ⟨⟨"", false, none⟩, RunOutcome.ok⟩

theorem C7_relative_dir_witness :
    make_test true cfgW treeW fnsW ldW Mode.Ui ["r"] none =
      none ∧
    (make_test true cfgW treeW fnsW ldW Mode.Ui
        ["x", "a.sol"] none).map (fun d => d.desc.name) =
      some (mkName Mode.Ui ["x", "a.sol"] none) := by
  constructor
  · exact (C7_relative_dir true cfgW treeW fnsW ldW Mode.Ui ["r"] none).1.mpr
      (by rfl)
  · have h : make_test true cfgW treeW fnsW ldW Mode.Ui
        ["x", "a.sol"] none = some dC7 := by rfl
    rw [h, Option.map_some',
      (C7_relative_dir true cfgW treeW fnsW ldW Mode.Ui ["x", "a.sol"] none).2
        (by rfl) dC7 h]

/-! ## Claim C5 (corrected) -/

/-- C5 counterexample: under the default (non-nightly) configuration a
check-time skip is reported as ignored, but the reason string is
dropped: the descriptor carries no message, not the reason. -/
theorem C5_counterexample :
    fnsSkip.check cfgW ["r", "tests", "ui", "a.sol"] =
      TestResult.Skipped "reason X" ∧
    (make_test false cfgW treeW fnsSkip ldW Mode.Ui
        ["r", "tests", "ui", "a.sol"] none).map scheduleCase =
      some (CaseReport.ignored none) ∧
    CaseReport.ignored none ≠ CaseReport.ignored (some "reason X") := by
  refine ⟨rfl, rfl, by decide⟩

/-- C5 (amended): a check-time Skipped(reason) marks the descriptor
ignored, so the scheduler reports it as ignored without invoking the
run closure (the report is the same for every run function); the
reason string accompanies the report under the nightly feature and is
dropped under the default feature. -/
theorem C5_check_skip {Props : Type} (nightly : Bool) (config : Config)
    (t : Fs) (fns : TestFns Props) (load : String → Option String → Props)
    (mode : Mode) (path : List String) (rev : Option String)
    (d : TestDescAndFn) (reason : String)
    (hck : fns.check config path = TestResult.Skipped reason)
    (hd : make_test nightly config t fns load mode path rev = some d) :
    d.desc.ignore = true ∧
    d.desc.ignoreMessage = (if nightly then some reason else none) ∧
    scheduleCase d =
      CaseReport.ignored (if nightly then some reason else none) ∧
    ∀ (run2 : TestCx Props → TestResult) (d2 : TestDescAndFn),
      make_test nightly config t ⟨fns.check, run2⟩ load mode path rev =
        some d2 →
      scheduleCase d2 = scheduleCase d := by
  obtain ⟨hig, hmsg⟩ := make_test_skip hck hd
  have hsc : scheduleCase d =
      CaseReport.ignored (if nightly then some reason else none) := by
    unfold scheduleCase
    rw [hig, hmsg]
    simp
  refine ⟨hig, hmsg, hsc, ?_⟩
  intro run2 d2 hd2
  obtain ⟨hig2, hmsg2⟩ := @make_test_skip Props nightly config t ⟨fns.check, run2⟩ load mode path rev d2 reason hck hd2
  unfold scheduleCase
  rw [hig, hig2, hmsg, hmsg2]
  rfl

def dC5 : TestDescAndFn :=
  (make_test true cfgW treeW fnsSkip ldW Mode.Ui
    ["r", "tests", "ui", "a.sol"] none).getD ⟨⟨"", false, none⟩, RunOutcome.ok⟩

theorem C5_check_skip_witness :
    (make_test true cfgW treeW fnsSkip ldW Mode.Ui
        ["r", "tests", "ui", "a.sol"] none).map scheduleCase =
      some (CaseReport.ignored (some "reason X")) := by
  have h : make_test true cfgW treeW fnsSkip ldW Mode.Ui
      ["r", "tests", "ui", "a.sol"] none = some dC5 := by rfl
  rw [h, Option.map_some',
    (C5_check_skip true cfgW treeW fnsSkip ldW Mode.Ui
      ["r", "tests", "ui", "a.sol"] none dC5 "reason X" rfl h).2.2.1]
  rfl

/-! ## Claim C6 (corrected) -/

/-- C6 counterexample: a run function that returns Skipped at run time
does not reach the failure channel; the closure completes and the case
is reported as passed. -/
theorem C6_counterexample :
    fnsSkipRun.run ⟨cfgW, ⟨["r", "tests", "ui", "a.sol"], ["tests", "ui"]⟩,
        "contract A {}", (), none⟩ = TestResult.Skipped "slow" ∧
    (make_test true cfgW treeW fnsSkipRun ldW Mode.Ui
        ["r", "tests", "ui", "a.sol"] none).map scheduleCase =
      some CaseReport.passed ∧
    CaseReport.passed ≠ CaseReport.failed "test failed" := by
  refine ⟨rfl, rfl, by decide⟩

/-- C6 (amended): inside the run closure only a Failed result is sent
to the failure channel, with the generic message; both Passed and a
run-time Skipped complete the closure successfully. -/
theorem C6_runtime_mapping {Props : Type} (t : Fs)
    (load : String → Option String → Props) (run : TestCx Props → TestResult)
    (config : Config) (path relative_dir : List String) (rev : Option String)
    (rel : List String) (src : String)
    (hstrip : stripRoot config.root path = some rel)
    (hsrc : fileContent rel t = some src) :
    (run ⟨config, ⟨path, relative_dir⟩, src, load src rev, rev⟩ =
        TestResult.Failed →
      closureOutcome t load run config path relative_dir rev =
        RunOutcome.err "test failed") ∧
    (run ⟨config, ⟨path, relative_dir⟩, src, load src rev, rev⟩ =
        TestResult.Passed →
      closureOutcome t load run config path relative_dir rev =
        RunOutcome.ok) ∧
    (∀ r, run ⟨config, ⟨path, relative_dir⟩, src, load src rev, rev⟩ =
        TestResult.Skipped r →
      closureOutcome t load run config path relative_dir rev =
        RunOutcome.ok) := by
  refine ⟨?_, ?_, ?_⟩
  · intro h
    simp only [closureOutcome, hstrip, hsrc]
    rw [h]
  · intro h
    simp only [closureOutcome, hstrip, hsrc]
    rw [h]
  · intro r h
    simp only [closureOutcome, hstrip, hsrc]
    rw [h]

theorem C6_runtime_mapping_witness :
    closureOutcome treeW ldW fnsSkipRun.run cfgW
      ["r", "tests", "ui", "a.sol"] ["tests", "ui"] none = RunOutcome.ok := by
  exact (C6_runtime_mapping treeW ldW fnsSkipRun.run cfgW
    ["r", "tests", "ui", "a.sol"] ["tests", "ui"] none
    ["tests", "ui", "a.sol"] "contract A {}" rfl rfl).2.2 "slow" rfl

/-! ## Claim C1 -/

/-- C1: for the Ui mode only, a fixture whose revision lister returns K
tags yields exactly K TestCases, one per tag in the order returned,
and no unrevisioned TestCase; an empty list yields exactly one
unrevisioned TestCase; non-Ui modes never consult the lister and
always yield exactly one TestCase per fixture. -/
theorem C1_revision_fanout {Props : Type} (nightly : Bool) (config : Config)
    (t : Fs) (fns : TestFns Props) (load : String → Option String → Props)
    (lr : List String → List String) (path : List String) :
    (∀ l, lr path ≠ [] →
      casesFor nightly config t fns load lr Mode.Ui path = some l →
      l.length = (lr path).length ∧
      (∀ i (h1 : i < (lr path).length) (h2 : i < l.length),
        make_test nightly config t fns load Mode.Ui path
          (some ((lr path).get ⟨i, h1⟩)) = some (l.get ⟨i, h2⟩)) ∧
      (∀ d ∈ l, ∃ rev : String,
        make_test nightly config t fns load Mode.Ui path (some rev) =
          some d)) ∧
    (lr path = [] → ∀ l,
      casesFor nightly config t fns load lr Mode.Ui path = some l →
      ∃ d, l = [d] ∧
        make_test nightly config t fns load Mode.Ui path none = some d) ∧
    (∀ mode, mode ≠ Mode.Ui →
      (∀ lr2 : List String → List String,
        casesFor nightly config t fns load lr mode path =
          casesFor nightly config t fns load lr2 mode path) ∧
      (∀ l, casesFor nightly config t fns load lr mode path = some l →
        ∃ d, l = [d] ∧
          make_test nightly config t fns load mode path none = some d)) := by
  refine ⟨?_, ?_, ?_⟩
  · intro l hne hc
    cases hrev : lr path with
    | nil => exact absurd hrev hne
    | cons r rs =>
      rw [casesFor_ui_revs hrev] at hc
      have hfa := mapM_eq_some hc
      have hget := List.forall₂_iff_get.mp hfa
      refine ⟨hget.1.symm, ?_, ?_⟩
      · intro i h1 h2
        exact hget.2 i h1 h2
      · intro d hd
        rcases forall2_mem_right hfa hd with ⟨rev, _, hr⟩
        exact ⟨rev, hr⟩
  · intro hrev l hc
    rw [casesFor_ui_empty hrev] at hc
    cases hmk : make_test nightly config t fns load Mode.Ui path none with
    | none =>
      rw [hmk] at hc
      cases hc
    | some d0 =>
      rw [hmk] at hc
      simp only [Option.map_some', Option.some_inj] at hc
      refine ⟨d0, ?_, ?_⟩
      · first
        | exact hc
        | exact hc.symm
      · rfl
  · intro mode hm
    constructor
    · intro lr2
      rw [casesFor_non_ui hm, casesFor_non_ui hm]
    · intro l hc
      rw [casesFor_non_ui hm] at hc
      cases hmk : make_test nightly config t fns load mode path none with
      | none =>
        rw [hmk] at hc
        cases hc
      | some d0 =>
        rw [hmk] at hc
        simp only [Option.map_some', Option.some_inj] at hc
        refine ⟨d0, ?_, ?_⟩
        · first
          | exact hc
          | exact hc.symm
        · rfl

def lC1 : List TestDescAndFn :=
  (casesFor true cfgW treeW fnsW ldW lrW Mode.Ui
    ["r", "tests", "ui", "a", "c.sol"]).getD []

def lC1b : List TestDescAndFn :=
  (casesFor true cfgW treeW fnsW ldW lrW Mode.Ui
    ["r", "tests", "ui", "a.sol"]).getD []

theorem C1_revision_fanout_witness :
    (casesFor true cfgW treeW fnsW ldW lrW Mode.Ui
        ["r", "tests", "ui", "a", "c.sol"]).map (fun l => l.length) =
      some 2 ∧
    (casesFor true cfgW treeW fnsW ldW lrW Mode.Ui
        ["r", "tests", "ui", "a.sol"]).map (fun l => l.length) = some 1 := by
  constructor
  · have h : casesFor true cfgW treeW fnsW ldW lrW Mode.Ui
        ["r", "tests", "ui", "a", "c.sol"] = some lC1 := by rfl
    have hlen := ((C1_revision_fanout true cfgW treeW fnsW ldW lrW
      ["r", "tests", "ui", "a", "c.sol"]).1 lC1 (by decide) h).1
    rw [h, Option.map_some', hlen]
    rfl
  · have h : casesFor true cfgW treeW fnsW ldW lrW Mode.Ui
        ["r", "tests", "ui", "a.sol"] = some lC1b := by rfl
    obtain ⟨d, hld, _⟩ := (C1_revision_fanout true cfgW treeW fnsW ldW lrW
      ["r", "tests", "ui", "a.sol"]).2.1 (by decide) lC1b h
    rw [h, Option.map_some', hld]
    rfl

/-! ## Claim C8 (corrected) -/

def tree8 : Fs :=
  Fs.dir "r" [Fs.dir "tests" [Fs.dir "ui" [Fs.dir "d.sol" []]]]

/-- C8 counterexample: discovery filters only on the extension, so a
directory named with a matching extension is yielded as well; the
claimed restriction to regular files is false. -/
theorem C8_counterexample :
    collect_tests cfgW tree8 Mode.Ui =
      some [⟨["r", "tests", "ui", "d.sol"], true⟩] := by
  rfl

/-- C8 (amended): for a well-formed tree, discovery yields exactly the
walked entries, files or directories, whose extension matches the
mode's filter, in strictly increasing lexicographic path order
(per-level byte-wise file-name order); being a pure function of the
tree, the same tree always yields the same ordered list. -/
theorem C8_discovery {config : Config} {t : Fs} {mode : Mode} {sub : Fs}
    {l : List Item}
    (hnav : navigate (modeRoot mode) t = some sub)
    (hwf : Wf sub = true)
    (hc : collect_tests config t mode = some l) :
    (∀ e, e ∈ l ↔ e ∈ walk (config.root ++ modeRoot mode) sub ∧
      extMatch mode e.path = true) ∧
    l.Pairwise (fun a b => pathLt a.path b.path = true) := by
  obtain ⟨sub2, hnav2, rfl⟩ := collect_tests_struct hc
  rw [hnav] at hnav2
  have hsub : sub = sub2 := by
    simpa using hnav2
  subst hsub
  constructor
  · intro e
    exact List.mem_filter
  · exact (walk_sorted _ _ hwf).filter _

def subW : Fs := Fs.dir "ui"
  [Fs.file "a.sol" "contract A {}",
   Fs.dir "a" [Fs.file "b.sol" "contract B {}", Fs.file "c.sol" "contract C {}"]]

theorem C8_discovery_witness :
    ([⟨["r", "tests", "ui", "a", "b.sol"], false⟩,
      ⟨["r", "tests", "ui", "a", "c.sol"], false⟩,
      ⟨["r", "tests", "ui", "a.sol"], false⟩] : List Item).Pairwise
      (fun a b => pathLt a.path b.path = true) := by
  have hc : collect_tests cfgW treeW Mode.Ui =
      some [⟨["r", "tests", "ui", "a", "b.sol"], false⟩,
        ⟨["r", "tests", "ui", "a", "c.sol"], false⟩,
        ⟨["r", "tests", "ui", "a.sol"], false⟩] := by rfl
  exact (C8_discovery (by rfl) (by decide) hc).2

/-! ## Claim C4 -/

instance : IsTotal TestDescAndFn nameLe :=
  ⟨fun _ _ => listLe_total _ _⟩

instance : IsTrans TestDescAndFn nameLe :=
  ⟨fun _ _ _ h1 h2 => listLe_trans h1 h2⟩

theorem forall2_option_unique {α β : Type} {f : α → Option β} :
    ∀ {xs : List α} {ys₁ ys₂ : List β},
      List.Forall₂ (fun x y => f x = some y) xs ys₁ →
      List.Forall₂ (fun x y => f x = some y) xs ys₂ → ys₁ = ys₂ := by
  intro xs
  induction xs with
  | nil =>
    intro ys₁ ys₂ h1 h2
    cases h1
    cases h2
    rfl
  | cons a xs ih =>
    intro ys₁ ys₂ h1 h2
    cases h1 with
    | cons hy1 ht1 =>
      cases h2 with
      | cons hy2 ht2 =>
        have hy : _ = _ := Option.some_inj.mp (hy1.symm.trans hy2)
        rw [hy, ih ht1 ht2]

theorem sorted_perm_canonical :
    ∀ {l₁ l₂ : List TestDescAndFn}, l₁.Perm l₂ →
      l₁.Sorted nameLe → l₂.Sorted nameLe →
      l₁.Pairwise (fun a b => strBytes a.desc.name ≠ strBytes b.desc.name) →
      l₁ = l₂ := by
  intro l₁
  induction l₁ with
  | nil =>
    intro l₂ hperm _ _ _
    exact hperm.nil_eq
  | cons a t₁ ih =>
    intro l₂ hperm hs₁ hs₂ hd₁
    cases l₂ with
    | nil => exact absurd hperm.symm.nil_eq (by simp)
    | cons b t₂ =>
      have hs₁h := List.sorted_cons.mp hs₁
      have hs₂h := List.sorted_cons.mp hs₂
      have hd₁h := List.pairwise_cons.mp hd₁
      have hab : a = b := by
        by_contra hne
        have ha2 : a ∈ b :: t₂ := hperm.mem_iff.mp (List.mem_cons_self _ _)
        have hb1 : b ∈ a :: t₁ := hperm.symm.mem_iff.mp (List.mem_cons_self _ _)
        have ha : a ∈ t₂ := by
          rcases List.mem_cons.mp ha2 with h | h
          · exact absurd h hne
          · exact h
        have hb : b ∈ t₁ := by
          rcases List.mem_cons.mp hb1 with h | h
          · exact absurd h.symm hne
          · exact h
        exact hd₁h.1 b hb (listLe_antisymm (hs₁h.1 b hb) (hs₂h.1 a ha))
      subst hab
      rw [ih hperm.cons_inv hs₁h.2 hs₂h.2 hd₁h.2]

/-- C4: the suite handed to the scheduler is the concatenation of the
active modes' TestCases sorted stably by display-name bytes: the
result is sorted, it is a permutation of the concatenation, and with
pairwise distinct names it is the unique sorted arrangement, so the
run order does not depend on discovery or mode-iteration order. -/
theorem C4_sorted_suite {Props : Type} (nightly : Bool)
    (modeVar : Option String) (config : Config) (t : Fs)
    (fnsOf : Mode → TestFns Props) (lp lsp : String → Option String → Props)
    (lr : List String → List String) (l : List TestDescAndFn)
    (modes : List Mode) (perMode : List (List TestDescAndFn))
    (ham : activeModes modeVar = Except.ok modes)
    (hfa : List.Forall₂ (fun mode lm =>
      make_tests nightly config t fnsOf lp lsp lr mode = some lm)
      modes perMode)
    (hrun : run_tests nightly modeVar config t fnsOf lp lsp lr =
      Except.ok l) :
    l = perMode.flatten.insertionSort nameLe ∧
    l.Sorted nameLe ∧
    l.Perm perMode.flatten ∧
    (∀ l2, l2.Perm perMode.flatten → l2.Sorted nameLe →
      l.Pairwise (fun a b => strBytes a.desc.name ≠ strBytes b.desc.name) →
      l2 = l) := by
  obtain ⟨modes2, perMode2, ham2, hfa2, rfl⟩ := run_tests_struct hrun
  rw [ham] at ham2
  have hmeq : modes = modes2 := by
    simpa using ham2
  subst hmeq
  have hpm : perMode = perMode2 := forall2_option_unique hfa hfa2
  subst hpm
  refine ⟨rfl, List.sorted_insertionSort nameLe _,
    List.perm_insertionSort nameLe _, ?_⟩
  intro l2 hp2 hs2 hdist
  have hl2p : l2.Perm (perMode.flatten.insertionSort nameLe) :=
    hp2.trans (List.perm_insertionSort nameLe _).symm
  have hd2 : l2.Pairwise
      (fun a b => strBytes a.desc.name ≠ strBytes b.desc.name) :=
    (hl2p.pairwise_iff (fun h => h.symm)).mpr hdist
  exact sorted_perm_canonical hl2p hs2
    (List.sorted_insertionSort nameLe _) hd2

def lUiW : List TestDescAndFn :=
  (make_tests true cfgW treeW (fun _ => fnsW) ldW ldW lrW
    Mode.Ui).getD []

def lSSW : List TestDescAndFn :=
  (make_tests true cfgW treeW (fun _ => fnsW) ldW ldW lrW
    Mode.SolcSolidity).getD []

def lSYW : List TestDescAndFn :=
  (make_tests true cfgW treeW (fun _ => fnsW) ldW ldW lrW
    Mode.SolcYul).getD []

def suiteW : List TestDescAndFn :=
  match run_tests true none cfgW treeW (fun _ => fnsW)
      ldW ldW lrW with
  | .ok l => l
  | .error _ => []

theorem C4_sorted_suite_witness : suiteW.Sorted nameLe := by
  have hrun : run_tests true none cfgW treeW (fun _ => fnsW)
      ldW ldW lrW = Except.ok suiteW := by rfl
  have hfa : List.Forall₂ (fun mode lm =>
      make_tests true cfgW treeW (fun _ => fnsW) ldW ldW lrW
        mode = some lm)
      [Mode.Ui, Mode.SolcSolidity, Mode.SolcYul] [lUiW, lSSW, lSYW] :=
    List.Forall₂.cons (by rfl)
      (List.Forall₂.cons (by rfl) (List.Forall₂.cons (by rfl) List.Forall₂.nil))
  exact (C4_sorted_suite true none cfgW treeW (fun _ => fnsW) ldW ldW lrW
    suiteW [Mode.Ui, Mode.SolcSolidity, Mode.SolcYul] [lUiW, lSSW, lSYW]
    rfl hfa hrun).2.1

/-! ## Claim C3 (corrected) -/

def treeC3 : Fs := Fs.dir "r" [Fs.dir "tests" [Fs.dir "ui"
  [Fs.file "a.sol" "", Fs.file "a.sol#b.sol" ""]]]

def lrC3 : List String → List String := fun p =>
  if p = ["r", "tests", "ui", "a.sol"] then ["b.sol"] else []

/-- C3 counterexample: with revision tags unique within every fixture,
two distinct TestCases of one suite still collapse to one display
name, because a fixture file name may itself contain a hash sign: the
case of fixture a.sol with revision b.sol and the unrevisioned case of
fixture a.sol#b.sol are both named the same. -/
theorem C3_counterexample :
    lrC3 ["r", "tests", "ui", "a.sol"] = ["b.sol"] ∧
    lrC3 ["r", "tests", "ui", "a.sol#b.sol"] = [] ∧
    (run_tests true (some "ui") cfgW treeC3 (fun _ => fnsW)
        ldW ldW lrC3).map (fun l => l.map (fun d => d.desc.name)) =
      Except.ok ["[ui] tests/ui/a.sol#b.sol", "[ui] tests/ui/a.sol#b.sol"] := by
  refine ⟨rfl, rfl, rfl⟩

/-- C3 (amended): display names are pairwise distinct across the whole
assembled suite provided, in addition to unique revision tags within
each fixture, the fixture tree is well formed: sibling names have
distinct byte encodings and no file or directory name contains a slash
or a hash sign. -/
theorem C3_names_distinct {Props : Type} (nightly : Bool)
    (modeVar : Option String) (config : Config) (t : Fs)
    (fnsOf : Mode → TestFns Props) (lp lsp : String → Option String → Props)
    (lr : List String → List String) (l : List TestDescAndFn)
    (hwf : Wf t = true)
    (hrev : ∀ p, (lr p).Pairwise (fun a b => a ≠ b))
    (hrun : run_tests nightly modeVar config t fnsOf lp lsp lr =
      Except.ok l) :
    l.Pairwise (fun a b => a.desc.name ≠ b.desc.name) := by
  obtain ⟨modes, perMode, ham, hfa, rfl⟩ := run_tests_struct hrun
  rw [(List.perm_insertionSort nameLe perMode.flatten).pairwise_iff
    (fun h => h.symm)]
  rw [List.pairwise_flatten]
  constructor
  · intro lm hlm
    rcases forall2_mem_right hfa hlm with ⟨mode, _, hmk⟩
    exact make_tests_pairwise hwf hrev hmk
  · refine forall2_pairwise ?_ hfa (activeModes_nodup ham)
    intro m₁ m₂ lm₁ lm₂ h₁ h₂ hne d₁ hd₁ d₂ hd₂
    obtain ⟨rel₁, rev₁, hn₁⟩ := make_tests_name_shape h₁ hd₁
    obtain ⟨rel₂, rev₂, hn₂⟩ := make_tests_name_shape h₂ hd₂
    rw [hn₁, hn₂]
    exact mkName_inj_mode hne

theorem C3_names_distinct_witness :
    suiteW.Pairwise (fun a b => a.desc.name ≠ b.desc.name) := by
  have hrun : run_tests true none cfgW treeW (fun _ => fnsW)
      ldW ldW lrW = Except.ok suiteW := by rfl
  refine C3_names_distinct true none cfgW treeW (fun _ => fnsW) ldW ldW lrW
    suiteW (by decide) ?_ hrun
  intro p
  simp only [lrW]
  split
  · decide
  · decide

/-! ## Claim C10 -/

theorem run_tests_mem_of {Props : Type} {nightly : Bool}
    {modeVar : Option String} {config : Config} {t : Fs}
    {fnsOf : Mode → TestFns Props} {lp lsp : String → Option String → Props}
    {lr : List String → List String} {l : List TestDescAndFn}
    (hrun : run_tests nightly modeVar config t fnsOf lp lsp lr = Except.ok l)
    {modes : List Mode} (ham : activeModes modeVar = Except.ok modes)
    {mode : Mode} (hm : mode ∈ modes) {lm : List TestDescAndFn}
    (hmk : make_tests nightly config t fnsOf lp lsp lr mode = some lm)
    {d : TestDescAndFn} (hd : d ∈ lm) : d ∈ l := by
  obtain ⟨modes2, perMode, ham2, hfa, rfl⟩ := run_tests_struct hrun
  rw [ham] at ham2
  have hmeq : modes = modes2 := by
    simpa using ham2
  subst hmeq
  rcases forall2_mem_left hfa hm with ⟨lm2, hlm2, hmk2⟩
  rw [hmk] at hmk2
  have hlmeq : lm = lm2 := by
    simpa using hmk2
  subst hlmeq
  exact (List.perm_insertionSort nameLe _).mem_iff.mpr
    (List.mem_flatten.mpr ⟨lm, hlm2, hd⟩)

/-- C10: the SolcYul discovery root is the libyul subdirectory of the
SolcSolidity root; every sol entry under the libyul subtree is
discovered by both conformance modes (and when all modes run, the
suite holds one TestCase for it under each of the two mode tags),
while a yul entry there is discovered by SolcYul only, since the
SolcSolidity filter admits sol alone. -/
theorem C10_libyul_overlap {Props : Type} (nightly : Bool) (config : Config)
    (t : Fs) (fnsOf : Mode → TestFns Props)
    (lp lsp : String → Option String → Props) (lr : List String → List String)
    (sub ly : Fs) (e : Item)
    (hnav : navigate (modeRoot Mode.SolcSolidity) t = some sub)
    (hnavly : navigate ["libyul"] sub = some ly)
    (he : e ∈ walk (config.root ++ modeRoot Mode.SolcYul) ly) :
    modeRoot Mode.SolcYul = modeRoot Mode.SolcSolidity ++ ["libyul"] ∧
    (extOf e.path = some "sol" →
      (∀ inputs, collect_tests config t Mode.SolcSolidity = some inputs →
        e ∈ inputs) ∧
      (∀ inputs, collect_tests config t Mode.SolcYul = some inputs →
        e ∈ inputs)) ∧
    (extOf e.path = some "yul" →
      (∀ inputs, collect_tests config t Mode.SolcSolidity = some inputs →
        e ∉ inputs) ∧
      (∀ inputs, collect_tests config t Mode.SolcYul = some inputs →
        e ∈ inputs)) ∧
    (extOf e.path = some "sol" → Wf t = true →
      ∀ l, run_tests nightly none config t fnsOf lp lsp lr = Except.ok l →
      ∃ rel, stripRoot config.root e.path = some rel ∧
        (∃ d₁ ∈ l, d₁.desc.name = mkName Mode.SolcSolidity rel none) ∧
        (∃ d₂ ∈ l, d₂.desc.name = mkName Mode.SolcYul rel none)) := by
  have hroots : modeRoot Mode.SolcYul =
      modeRoot Mode.SolcSolidity ++ ["libyul"] := rfl
  have hnavSY : navigate (modeRoot Mode.SolcYul) t = some ly := by
    rw [hroots, navigate_append, hnav]
    exact hnavly
  have heSS : e ∈ walk (config.root ++ modeRoot Mode.SolcSolidity) sub := by
    apply walk_navigate_mem hnavly
    have hb : config.root ++ modeRoot Mode.SolcYul =
        (config.root ++ modeRoot Mode.SolcSolidity) ++ ["libyul"] := by
      rw [hroots, List.append_assoc]
    rw [hb] at he
    exact he
  have hmemSS : ∀ {inputs}, extMatch Mode.SolcSolidity e.path = true →
      collect_tests config t Mode.SolcSolidity = some inputs → e ∈ inputs := by
    intro inputs hx hcol
    obtain ⟨sub2, hnav2, rfl⟩ := collect_tests_struct hcol
    rw [hnav] at hnav2
    have : sub = sub2 := by simpa using hnav2
    subst this
    exact List.mem_filter.mpr ⟨heSS, hx⟩
  have hmemSY : ∀ {inputs}, extMatch Mode.SolcYul e.path = true →
      collect_tests config t Mode.SolcYul = some inputs → e ∈ inputs := by
    intro inputs hx hcol
    obtain ⟨sub2, hnav2, rfl⟩ := collect_tests_struct hcol
    rw [hnavSY] at hnav2
    have : ly = sub2 := by simpa using hnav2
    subst this
    exact List.mem_filter.mpr ⟨he, hx⟩
  have hsuite : ∀ (mode : Mode), mode ≠ Mode.Ui → mode ∈
        [Mode.Ui, Mode.SolcSolidity, Mode.SolcYul] →
      extMatch mode e.path = true →
      (∀ {inputs}, extMatch mode e.path = true →
        collect_tests config t mode = some inputs → e ∈ inputs) →
      Wf t = true →
      ∀ l, run_tests nightly none config t fnsOf lp lsp lr = Except.ok l →
      ∃ rel, stripRoot config.root e.path = some rel ∧
        ∃ d ∈ l, d.desc.name = mkName mode rel none := by
    intro mode hmui hmm hx hmem hwf l hrun
    obtain ⟨modes2, perMode, ham2, hfa, hl⟩ := run_tests_struct hrun
    have hmodes : modes2 = [Mode.Ui, Mode.SolcSolidity, Mode.SolcYul] := by
      simpa [activeModes] using ham2.symm
    subst hmodes
    rcases forall2_mem_left hfa hmm with ⟨lm, hlm, hmk⟩
    obtain ⟨inputs, blocks, hcol, hfab, hlmeq⟩ := make_tests_struct hmk
    have hein : e ∈ inputs := hmem hx hcol
    obtain ⟨rel, hstrip, hpath, hrelne, hrelgood⟩ :=
      collect_input_rel hwf hcol e hein
    rcases forall2_mem_left hfab hein with ⟨bl, hbl, hcf⟩
    rw [casesFor_non_ui hmui] at hcf
    cases hmk2 : make_test nightly config t (fnsOf mode)
        (if mode.solc_props then lsp else lp) mode e.path none with
    | none =>
      rw [hmk2] at hcf
      cases hcf
    | some d =>
      rw [hmk2] at hcf
      simp only [Option.map_some', Option.some_inj] at hcf
      have hdbl : d ∈ bl := by
        rw [← hcf]
        exact List.mem_singleton.mpr rfl
      have hdlm : d ∈ lm := by
        rw [hlmeq]
        exact List.mem_flatten.mpr ⟨bl, hbl, hdbl⟩
      refine ⟨rel, hstrip, d, run_tests_mem_of hrun rfl hmm hmk hdlm, ?_⟩
      have hgetD : (stripRoot config.root e.path).getD e.path = rel := by
        rw [hstrip]
        rfl
      rw [make_test_name hmk2, hgetD]
  refine ⟨hroots, ?_, ?_, ?_⟩
  · intro hsol
    constructor
    · intro inputs hcol
      exact hmemSS (by simp [extMatch, hsol]) hcol
    · intro inputs hcol
      exact hmemSY (by simp [extMatch, hsol]) hcol
  · intro hyul
    constructor
    · intro inputs hcol hmem
      obtain ⟨sub2, hnav2, rfl⟩ := collect_tests_struct hcol
      have hx := (List.mem_filter.mp hmem).2
      rw [extMatch] at hx
      simp [hyul, modeYul] at hx
    · intro inputs hcol
      exact hmemSY (by simp [extMatch, hyul, modeYul]) hcol
  · intro hsol hwf l hrun
    obtain ⟨rel, hstrip, d₁, hd₁, hn₁⟩ := hsuite Mode.SolcSolidity
      (by decide) (by decide) (by simp [extMatch, hsol])
      (fun hx hcol => hmemSS hx hcol) hwf l hrun
    obtain ⟨rel2, hstrip2, d₂, hd₂, hn₂⟩ := hsuite Mode.SolcYul
      (by decide) (by decide) (by simp [extMatch, hsol])
      (fun hx hcol => hmemSY hx hcol) hwf l hrun
    have hre : rel2 = rel := by
      rw [hstrip] at hstrip2
      have : rel = rel2 := by simpa using hstrip2
      exact this.symm
    subst hre
    exact ⟨rel2, hstrip, ⟨d₁, hd₁, hn₁⟩, ⟨d₂, hd₂, hn₂⟩⟩

def subW10 : Fs := Fs.dir "test"
  [Fs.file "top.sol" "contract T {}",
   Fs.dir "libyul" [Fs.file "s.sol" "contract S {}",
     Fs.file "y.yul" "object Y {}"]]

def lyW : Fs := Fs.dir "libyul"
  [Fs.file "s.sol" "contract S {}", Fs.file "y.yul" "object Y {}"]

theorem C10_libyul_overlap_witness :
    "[solc-solidity] testdata/solidity/test/libyul/s.sol" ∈
      suiteW.map (fun d => d.desc.name) ∧
    "[solc-yul] testdata/solidity/test/libyul/s.sol" ∈
      suiteW.map (fun d => d.desc.name) := by
  obtain ⟨rel, hrel, ⟨d₁, hd₁, hn₁⟩, ⟨d₂, hd₂, hn₂⟩⟩ :=
    (C10_libyul_overlap true cfgW treeW (fun _ => fnsW)
      ldW ldW lrW subW10 lyW
      ⟨["r", "testdata", "solidity", "test", "libyul", "s.sol"], false⟩
      rfl rfl (by decide)).2.2.2 rfl (by decide) suiteW (by rfl)
  have hrel2 : rel = ["testdata", "solidity", "test", "libyul", "s.sol"] := by
    have h : stripRoot cfgW.root
        ["r", "testdata", "solidity", "test", "libyul", "s.sol"] =
        some ["testdata", "solidity", "test", "libyul", "s.sol"] := rfl
    rw [h] at hrel
    simpa using hrel.symm
  subst hrel2
  constructor
  · refine List.mem_map.mpr ⟨d₁, hd₁, ?_⟩
    rw [hn₁]
    rfl
  · refine List.mem_map.mpr ⟨d₂, hd₂, ?_⟩
    rw [hn₂]
    rfl

end Solar
